import Mathlib

/-!
Verification of the diff decomposition, chunk-sizing, merge and
line-validation engine of the Code-Guardian repository.

Text is modelled as `List Char`; a diff document is the `List Char` of its
raw text, and line splitting / joining mirror JavaScript's
`String.prototype.split('\n')` and `Array.prototype.join('\n')`.
-/

namespace CodeGuardian

/-- Whitespace characters as recognised by JavaScript `String.prototype.trim`
(ASCII whitespace, NBSP, BOM and the Unicode space separators). -/
def isWSChar (c : Char) : Bool :=
  c = ' ' ∨ c = '\t' ∨ c = '\n' ∨ c = '\x0b' ∨ c = '\x0c' ∨ c = '\r' ∨
  c = ' ' ∨ c = '﻿' ∨ c = ' ' ∨
  (0x2000 ≤ c.toNat ∧ c.toNat ≤ 0x200a) ∨
  c = ' ' ∨ c = ' ' ∨ c = ' ' ∨ c = ' ' ∨ c = '　'

/-- `s.split('\n')` in JavaScript: splitting on every newline character;
the empty string yields one empty line. -/
def splitLines : List Char → List (List Char)
  | [] => [[]]
  | c :: cs =>
    if c = '\n' then [] :: splitLines cs
    else
      match splitLines cs with
      | r :: rs => (c :: r) :: rs
      | [] => [[c]]

/-- `lines.join('\n')` in JavaScript. -/
def joinLines : List (List Char) → List Char
  | [] => []
  | [l] => l
  | l :: ls => l ++ '\n' :: joinLines ls

/-- Boolean prefix test on character lists (`String.prototype.startsWith`). -/
def pfx (p l : List Char) : Bool := List.isPrefixOf p l

/-- Boolean suffix test on character lists (`String.prototype.endsWith`). -/
def sfx (p l : List Char) : Bool := List.isSuffixOf p l

/-- Boolean substring test (`String.prototype.includes`). -/
def occurs (needle : List Char) : List Char → Bool
  | [] => pfx needle []
  | c :: cs => pfx needle (c :: cs) || occurs needle cs

/-- A string is dropped by the source's `trim().length > 0` checks exactly
when every character is whitespace. -/
def allWS (l : List Char) : Bool := l.all isWSChar

/-- General join with a separator (`Array.prototype.join(sep)`). -/
def joinSep (sep : List Char) : List (List Char) → List Char
  | [] => []
  | [x] => x
  | x :: xs => x ++ sep ++ joinSep sep xs

/-- The number of lines of a string as the source computes it:
`s.split('\n').length`. -/
def lineCount (s : List Char) : Nat := (splitLines s).length

/-- Decimal rendering of a natural number, for the label strings. -/
def natChars (n : Nat) : List Char := (Nat.repr n).data

def isDigitChar (c : Char) : Bool := '0' ≤ c ∧ c ≤ '9'

/-- The maximal digit run at the head of the list, and what follows it. -/
def digitRun : List Char → List Char × List Char
  | [] => ([], [])
  | c :: cs =>
    if isDigitChar c then
      let p := digitRun cs
      (c :: p.1, p.2)
    else ([], c :: cs)

/-- `parseInt` on a string of decimal digits. -/
def parseNatDigits (ds : List Char) : Nat :=
  ds.foldl (fun n c => n * 10 + (c.toNat - 48)) 0

/-- Drop a literal prefix, or fail. -/
def afterPfx (p l : List Char) : Option (List Char) :=
  if pfx p l then some (l.drop p.length) else none

/- Literal fragments used by the source's string tests and templates. -/

def dgMark : List Char := "diff --git".data
def dgAMark : List Char := "diff --git a/".data
def bSlashMark : List Char := " b/".data
def hdrMark : List Char := "@@ ".data
def hdrDashMark : List Char := "@@ -".data
def spacePlusMark : List Char := " +".data
def spaceAtAtMark : List Char := " @@".data
def pppMark : List Char := "+++ ".data
def pppBMark : List Char := "+++ b/".data
def plusMark : List Char := "+".data
def dashMark : List Char := "-".data
def spaceMark : List Char := " ".data
def slashMark : List Char := "/".data

/-- One numeric token of the hunk header pattern: `(\d+),?\d*`.  Returns the
captured leading digit group and the rest of the input.  The regex engine's
greedy matching of this fragment is deterministic: the leading `\d+` takes the
whole digit run, an optional comma and a second digit run follow. -/
def hunkNumToken (l : List Char) : Option (List Char × List Char) :=
  let p := digitRun l
  if p.1 = [] then none
  else
    match p.2 with
    | ',' :: r2 => some (p.1, (digitRun r2).2)
    | r2 => some (p.1, r2)

/-- The pattern `@@ -(\d+),?\d* \+(\d+),?\d* @@` matched at the head of the
input; the result is `parseInt` of the second capture (the new-file start). -/
def hunkHeaderAt (l : List Char) : Option Nat := do
  let r1 ← afterPfx hdrDashMark l
  let t1 ← hunkNumToken r1
  let r2 ← afterPfx spacePlusMark t1.2
  let t2 ← hunkNumToken r2
  let _ ← afterPfx spaceAtAtMark t2.2
  pure (parseNatDigits t2.1)

/-- `line.match(/@@ -(\d+),?\d* \+(\d+),?\d* @@/)`: the unanchored search
tries every start position from the left. -/
def reHunkHeader : List Char → Option Nat
  | [] => none
  | c :: cs =>
    match hunkHeaderAt (c :: cs) with
    | some n => some n
    | none => reHunkHeader cs

/-- The greedy split of the text after `a/` in the `diff --git` header
pattern `diff --git a\/(.+) b\/(.+)`: the first capture is the longest
prefix that is followed by a nonempty second capture after a literal
`\x20b/`. -/
def lastBSplit (rest : List Char) : Option (List Char) :=
  let ks := (List.range rest.length).filter fun k =>
    decide (1 ≤ k) && pfx bSlashMark (rest.drop k) && decide (k + 3 < rest.length)
  ks.getLast?.map fun k => rest.take k

/-- The `diff --git a\/(.+) b\/(.+)` pattern matched at the head of the
input; the result is the first capture (the `a/` path). -/
def dgAt (l : List Char) : Option (List Char) := do
  let rest ← afterPfx dgAMark l
  lastBSplit rest

/-- `line.match(/diff --git a\/(.+) b\/(.+)/)`, unanchored leftmost match. -/
def reDiffGit : List Char → Option (List Char)
  | [] => none
  | c :: cs =>
    match dgAt (c :: cs) with
    | some n => some n
    | none => reDiffGit cs

/-- The `\+\+\+ b\/(.+)` pattern matched at the head of the input. -/
def ppbAt (l : List Char) : Option (List Char) := do
  let rest ← afterPfx pppBMark l
  if rest = [] then none else some rest

/-- `line.match(/\+\+\+ b\/(.+)/)`, unanchored leftmost match. -/
def rePlusPlusB : List Char → Option (List Char)
  | [] => none
  | c :: cs =>
    match ppbAt (c :: cs) with
    | some n => some n
    | none => rePlusPlusB cs

/-! ## Configuration

The `AIService` constructor reads each setting with a `||`/`??` fallback; the
structure's defaults are those fallback values. -/

structure AIConfig where
  maxDiffLinesForChunking : Nat := 300
  maxDiffSizeForChunking : Nat := 20000
  maxFileChunkLines : Nat := 150
  maxFileChunkSize : Nat := 8000
  maxSubChunkLines : Nat := 80
  parallelBatchSize : Nat := 2
  excludedFilePatterns : List (List Char) := []
  chunkMergeEnabled : Bool := true
  optimalChunkSize : Nat := 120
  maxChunkSize : Nat := 200
  minChunkSize : Nat := 40

def defaultAIConfig : AIConfig := {}

/-! ## Diff Splitter (`splitDiffByFiles`)

Every branch of the source's loop body pushes the current line into the
current accumulator except the `diff --git` branch, which first saves the
accumulated chunk (when it is nonempty and not whitespace-only) and then
starts a new chunk with the header line.  The final chunk is saved under the
same condition, and the result is filtered once more for non-whitespace
content. -/

structure SplitAcc where
  chunks : List (List Char)
  cur : List (List Char)

def saveChunk (chunks : List (List Char)) (cur : List (List Char)) : List (List Char) :=
  if !cur.isEmpty && !allWS (joinLines cur) then chunks ++ [joinLines cur] else chunks

def splitStep (acc : SplitAcc) (line : List Char) : SplitAcc :=
  if pfx dgMark line then
    { chunks := saveChunk acc.chunks acc.cur, cur := [line] }
  else
    { acc with cur := acc.cur ++ [line] }

def splitDiffByFiles (diff : List Char) : List (List Char) :=
  let fin := (splitLines diff).foldl splitStep ⟨[], []⟩
  let fileChunks := saveChunk fin.chunks fin.cur
  fileChunks.filter (fun c => !allWS c)

/-! ## Path extraction (`extractFileNameFromDiff`) -/

/-- Scan the lines of a file segment: a line starting with the file header
marker is matched against the `diff --git` pattern, and a line starting with
`+++\x20` against the `\+\+\+ b\/(.+)` pattern; the first successful match
wins, else the result is null. -/
def extractNameScan : List (List Char) → Option (List Char)
  | [] => none
  | line :: rest =>
    match (if pfx dgMark line then reDiffGit line else none) with
    | some n => some n
    | none =>
      match (if pfx pppMark line then rePlusPlusB line else none) with
      | some n => some n
      | none => extractNameScan rest

def extractFileNameFromDiff (fileDiff : List Char) : Option (List Char) :=
  extractNameScan (splitLines fileDiff)

/-! ## Exclusion filter (`shouldExcludeFile`) -/

def pkgLockSfx : List Char := "package-lock.json".data
def yarnLockSfx : List Char := "yarn.lock".data
def pnpmLockSfx : List Char := "pnpm-lock.yaml".data
def composerLockSfx : List Char := "composer.lock".data
def distPfxMark : List Char := "dist/".data
def buildPfxMark : List Char := "build/".data
def outPfxMark : List Char := "out/".data
def minJsSfx : List Char := ".min.js".data
def minCssSfx : List Char := ".min.css".data
def nodeModulesMark : List Char := "node_modules/".data
def vendorMark : List Char := "vendor/".data
def vscodeMark : List Char := ".vscode/".data
def ideaMark : List Char := ".idea/".data
def dsStoreSfx : List Char := ".DS_Store".data
def thumbsDbSfx : List Char := "Thumbs.db".data
def gitDirMark : List Char := ".git/".data
def logSfx : List Char := ".log".data
def coverageMark : List Char := "coverage/".data
def coverageDotMark : List Char := "coverage.".data

/-- One configured exclusion pattern: a pattern containing a slash is a path
pattern (substring or leading-path match), otherwise a filename pattern
(exact name, or the name at the end of or inside a path). -/
def patternMatchCfg (fileName pattern : List Char) : Bool :=
  if occurs slashMark pattern then
    occurs pattern fileName || pfx pattern fileName
  else
    fileName == pattern || sfx (slashMark ++ pattern) fileName ||
      occurs (slashMark ++ pattern) fileName

/-- `/coverage\..*$/`: an occurrence of `coverage.` whose tail reaches the
end of the input without a newline. -/
def coverageDotTest : List Char → Bool
  | [] => false
  | c :: cs =>
    (pfx coverageDotMark (c :: cs) && !((c :: cs).drop 9).contains '\n') ||
      coverageDotTest cs

/-- The fixed `smartExclusions` pattern set, in source order. -/
def smartExcluded (f : List Char) : Bool :=
  sfx pkgLockSfx f || sfx yarnLockSfx f || sfx pnpmLockSfx f || sfx composerLockSfx f ||
  pfx distPfxMark f || pfx buildPfxMark f || pfx outPfxMark f ||
  sfx minJsSfx f || sfx minCssSfx f ||
  pfx nodeModulesMark f || pfx vendorMark f ||
  pfx vscodeMark f || pfx ideaMark f || sfx dsStoreSfx f || sfx thumbsDbSfx f ||
  pfx gitDirMark f ||
  sfx logSfx f ||
  pfx coverageMark f || coverageDotTest f

def shouldExcludeFile (cfg : AIConfig) (fileName : List Char) : Bool :=
  cfg.excludedFilePatterns.any (patternMatchCfg fileName) || smartExcluded fileName

/-! ## File classification (`shouldSubChunkFile`) -/

structure SubChunkDecision where
  needsSubChunking : Bool
  reason : List Char
  chunkSize : Option Nat
deriving DecidableEq

def jsonExtSfx : List Char := ".json".data
def lockExtSfx : List Char := ".lock".data

/-- `/\.(ts|js|py|java|cpp|c\+\+|cs|php|rb|go|rs)$/` -/
def isCodeExt (n : List Char) : Bool :=
  sfx ".ts".data n || sfx ".js".data n || sfx ".py".data n || sfx ".java".data n ||
  sfx ".cpp".data n || sfx ".c++".data n || sfx ".cs".data n || sfx ".php".data n ||
  sfx ".rb".data n || sfx ".go".data n || sfx ".rs".data n

/-- `/\.(md|txt|yml|yaml|xml|html|css)$/` -/
def isTextExt (n : List Char) : Bool :=
  sfx ".md".data n || sfx ".txt".data n || sfx ".yml".data n || sfx ".yaml".data n ||
  sfx ".xml".data n || sfx ".html".data n || sfx ".css".data n

def rUnder15 : List Char := "File size under 15KB threshold".data
def rJsonSmall : List Char := "JSON file under 30KB threshold".data
def rJsonBig : List Char := "Large JSON file needs chunking".data
def rCodeBig : List Char := "Large code file needs chunking".data
def rTextSmall : List Char := "Text file under 25KB threshold".data
def rTextBig : List Char := "Large text file needs chunking".data
def rDefaultBig : List Char := "File exceeds size thresholds".data
def rWithin : List Char := "File within acceptable limits".data

/-- The default branch reached when no extension rule returned: split when
the file has more than 300 lines or more than 25 KB. -/
def defaultSubChunkDecision (cfg : AIConfig) (fileLines fileSize : Nat) : SubChunkDecision :=
  if fileLines > 300 || fileSize > 25000 then
    ⟨true, rDefaultBig, some cfg.maxSubChunkLines⟩
  else ⟨false, rWithin, none⟩

/-- The extension-guarded early returns inside `if (fileName)`.  A code file
below its thresholds returns nothing and falls through to the default
branch, exactly as in the source. -/
def namedSubChunkDecision (n : List Char) (fileLines fileSize : Nat) :
    Option SubChunkDecision :=
  if sfx jsonExtSfx n || sfx lockExtSfx n then
    some (if fileSize < 30000 then ⟨false, rJsonSmall, none⟩
          else ⟨true, rJsonBig, some 150⟩)
  else if isCodeExt n && (decide (fileLines > 400) || decide (fileSize > 20000)) then
    some ⟨true, rCodeBig, some 120⟩
  else if isTextExt n then
    some (if fileSize < 25000 then ⟨false, rTextSmall, none⟩
          else ⟨true, rTextBig, some 100⟩)
  else none

def shouldSubChunkFile (cfg : AIConfig) (_fileDiff : List Char)
    (fileLines fileSize : Nat) (fileName : Option (List Char)) : SubChunkDecision :=
  if fileSize < 15000 then ⟨false, rUnder15, none⟩
  else
    match fileName with
    | some n =>
      match namedSubChunkDecision n fileLines fileSize with
      | some d => d
      | none => defaultSubChunkDecision cfg fileLines fileSize
    | none => defaultSubChunkDecision cfg fileLines fileSize

/-! ## Sub-Chunker (`splitLargeFileIntoSubChunks`) -/

/-- The slice loop of the sub-chunker, driven by a fuel argument: every step
recurses on a proper suffix, so fuel equal to the input length is never
exhausted. -/
def windowsGo : Nat → Nat → List (List Char) → List (List (List Char))
  | 0, _, _ => []
  | _, _, [] => []
  | fuel + 1, n, l :: ls =>
    if n = 0 then []
    else (l :: ls).take n :: windowsGo fuel n ((l :: ls).drop n)

/-- Consecutive non-overlapping windows of `n` lines (the last may be
shorter), as produced by the source's `for (i = 0; i < len; i += n)` slice
loop.  With `n = 0` the source's loop would not terminate; the model returns
nothing in that unreachable case. -/
def windows (n : Nat) (ls : List (List Char)) : List (List (List Char)) :=
  windowsGo ls.length n ls

/-- `chunkSize || this.maxSubChunkLines`: an absent or zero (falsy) chunk
size falls back to the configured default. -/
def actualSubChunkSize (cfg : AIConfig) (chunkSize : Option Nat) : Nat :=
  match chunkSize with
  | some n => if n = 0 then cfg.maxSubChunkLines else n
  | none => cfg.maxSubChunkLines

def splitLargeFileIntoSubChunks (cfg : AIConfig) (fileDiff : List Char)
    (chunkSize : Option Nat) : List (List Char) :=
  ((windows (actualSubChunkSize cfg chunkSize) (splitLines fileDiff)).map
    joinLines).filter (fun c => !allWS c)

/-! ## Hunk/Line Mapper (`buildLineToCodeMap`)

The map from new-file line numbers to code text, as a JavaScript `Map` in
insertion order: `set` overwrites an existing key in place, `get` finds the
entry. -/

def mapSet (m : List (Int × List Char)) (k : Int) (v : List Char) :
    List (Int × List Char) :=
  if m.any (fun e => e.1 == k) then
    m.map (fun e => if e.1 == k then (k, v) else e)
  else m ++ [(k, v)]

def mapGet (m : List (Int × List Char)) (k : Int) : Option (List Char) :=
  (m.find? (fun e => e.1 == k)).map (·.2)

structure B2CState where
  currentFile : List Char
  cur : Int
  inHunk : Bool
  entries : List (Int × List Char)

/-- One line of `buildLineToCodeMap`'s loop.  The three `if` blocks of the
source run in sequence: file tracking, hunk header parsing, and the line
mapping guarded by `inHunk && currentHunkStartLine > 0`. -/
def b2cStep (s : B2CState) (line : List Char) : B2CState :=
  let s := if pfx dgMark line then
      { s with currentFile := (reDiffGit line).getD s.currentFile, inHunk := false }
    else s
  let s := if pfx hdrMark line then
      match reHunkHeader line with
      | some c => { s with cur := (c : Int), inHunk := true }
      | none => s
    else s
  if s.inHunk ∧ 0 < s.cur then
    if pfx plusMark line then
      { s with entries := mapSet s.entries s.cur (line.drop 1), cur := s.cur + 1 }
    else if pfx spaceMark line then
      { s with entries := mapSet s.entries s.cur (line.drop 1), cur := s.cur + 1 }
    else
      -- removed lines are logged only; all other lines are skipped
      s
  else s

def b2cInit : B2CState := ⟨[], 0, false, []⟩

def buildLineToCodeMap (diffChunk : List Char) : List (Int × List Char) :=
  ((splitLines diffChunk).foldl b2cStep b2cInit).entries

/-! ## Hunk extraction (`extractDiffHunks`, `findDiffHunkForLine`) -/

structure DiffHunk where
  header : List Char
  content : List Char
  startLine : Int
  endLine : Int
deriving DecidableEq

/-- Push the pending hunk when it has content lines and a header
(`currentHunk.length > 0 && currentHeader`); `endLine` is the start plus the
number of accumulated content lines. -/
def pushHunk (hunks : List DiffHunk) (curHunk : List (List Char))
    (hdr : List Char) (start : Int) : List DiffHunk :=
  if !curHunk.isEmpty && !hdr.isEmpty then
    hunks ++ [⟨hdr, joinLines curHunk, start, start + curHunk.length⟩]
  else hunks

/-- The loop of `extractDiffHunks`; `i` is the loop index used as the fallback
start line when a header fails to parse.  On a `diff --git` line the source
pushes the pending hunk and breaks, and the push after the loop then pushes
the same pending hunk a second time. -/
def extractGo (hunks : List DiffHunk) (curHunk : List (List Char))
    (hdr : List Char) (start : Int) (inHunk : Bool) (i : Nat) :
    List (List Char) → List DiffHunk
  | [] => pushHunk hunks curHunk hdr start
  | line :: rest =>
    if pfx hdrMark line then
      let hunks := pushHunk hunks curHunk hdr start
      let start : Int := match reHunkHeader line with
        | some c => (c : Int)
        | none => (i : Int)
      extractGo hunks [] line start true (i + 1) rest
    else if inHunk && (pfx plusMark line || pfx dashMark line || pfx spaceMark line) then
      extractGo hunks (curHunk ++ [line]) hdr start inHunk (i + 1) rest
    else if pfx dgMark line then
      pushHunk (pushHunk hunks curHunk hdr start) curHunk hdr start
    else extractGo hunks curHunk hdr start inHunk (i + 1) rest

def extractDiffHunks (diffChunk : List Char) : List DiffHunk :=
  extractGo [] [] [] 0 false 0 (splitLines diffChunk)

/-- The first hunk whose `[startLine, endLine]` range contains the target
line yields its header plus the first ten content lines; otherwise null. -/
def findDiffHunkForLine (hunks : List DiffHunk) (targetLine : Int) :
    Option (List Char) :=
  match hunks with
  | [] => none
  | h :: hs =>
    if h.startLine ≤ targetLine ∧ targetLine ≤ h.endLine then
      some (h.header ++ '\n' :: joinLines ((splitLines h.content).take 10))
    else findDiffHunkForLine hs targetLine

/-! ## Chunks and the Chunk Merger (`mergeSmallChunks`, `finalizeMergedBatch`) -/

structure Chunk where
  content : List Char
  label : List Char
  index : Nat
deriving DecidableEq

def nnSep : List Char := "\n\n".data
def spaceParenMark : List Char := " (".data
def commaSpaceMark : List Char := ", ".data
def mlMergedOpen : List Char := "Merged (".data
def mlFiles : List Char := " files: ".data
def mlDots : List Char := "...".data
def mlCloseOpen : List Char := ") (".data
def lblLines : List Char := " lines, ".data
def lblChars : List Char := " chars)".data

/-- `label.split(' (')[0]`: the prefix before the first occurrence of the
separator (the whole string when the separator does not occur). -/
def takeUntilSub (sep : List Char) : List Char → List Char
  | [] => []
  | c :: cs => if pfx sep (c :: cs) then [] else c :: takeUntilSub sep cs

/-- The synthesized label of a merged batch. -/
def mergedLabel (batch : List Chunk) : List Char :=
  let mergedContent := joinSep nnSep (batch.map (·.content))
  let labels := batch.map (fun c => takeUntilSub spaceParenMark c.label)
  mlMergedOpen ++ natChars batch.length ++ mlFiles ++
    joinSep commaSpaceMark (labels.take 3) ++
    (if labels.length > 3 then mlDots else []) ++ mlCloseOpen ++
    natChars (lineCount mergedContent) ++ lblLines ++
    natChars mergedContent.length ++ lblChars

/-- A single-element batch is emitted unchanged; a longer batch is joined
with a blank line into one chunk whose index is its output position. -/
def finalizeMergedBatch (batch : List Chunk) (out : List Chunk) : List Chunk :=
  match batch with
  | [c] => out ++ [c]
  | _ =>
    out ++ [⟨joinSep nnSep (batch.map (·.content)), mergedLabel batch, out.length⟩]

structure MergeState where
  out : List Chunk
  batch : List Chunk
  bSize : Nat
  bLines : Nat

def mergeFlush (s : MergeState) : MergeState :=
  { out := finalizeMergedBatch s.batch s.out, batch := [], bSize := 0, bLines := 0 }

/-- One candidate chunk of `mergeSmallChunks`'s loop. -/
def mergeStep (cfg : AIConfig) (s : MergeState) (c : Chunk) : MergeState :=
  let cl := lineCount c.content
  let csz := c.content.length
  let wouldExceed :=
    decide (s.bLines + cl > cfg.maxChunkSize) ||
    decide (s.bSize + csz > cfg.maxChunkSize * 1000)
  let s := if wouldExceed && !s.batch.isEmpty then mergeFlush s else s
  if decide (cl > cfg.optimalChunkSize) || decide (csz > cfg.optimalChunkSize * 100) then
    let s := if !s.batch.isEmpty then mergeFlush s else s
    { s with out := s.out ++ [c] }
  else
    let s := { s with batch := s.batch ++ [c], bSize := s.bSize + csz,
                      bLines := s.bLines + cl }
    if s.bLines ≥ cfg.optimalChunkSize then mergeFlush s else s

def mergeSmallChunks (cfg : AIConfig) (chunks : List Chunk) : List Chunk :=
  if chunks.length ≤ 1 then chunks
  else
    let fin := chunks.foldl (mergeStep cfg) ⟨[], [], 0, 0⟩
    (if !fin.batch.isEmpty then mergeFlush fin else fin).out

/-! ## Chunk collection (the first pass of `analyzeDiffInChunks`) -/

def fcLabelA : List Char := "File chunk ".data
def scLabelA : List Char := "Sub-chunk ".data
def dotMark : List Char := ".".data
def dashSepMark : List Char := " - ".data
def unknownMark : List Char := "unknown".data

def fileChunkLabel (i total fileLines fileSize : Nat)
    (fileName : Option (List Char)) : List Char :=
  fcLabelA ++ natChars (i + 1) ++ slashMark ++ natChars total ++ spaceParenMark ++
    natChars fileLines ++ lblLines ++ natChars fileSize ++ lblChars ++
    dashSepMark ++ fileName.getD unknownMark

def subChunkLabel (i j subLines subSize : Nat) : List Char :=
  scLabelA ++ natChars (i + 1) ++ dotMark ++ natChars (j + 1) ++ spaceParenMark ++
    natChars subLines ++ lblLines ++ natChars subSize ++ lblChars

/-- Whether a file segment is dropped before chunk collection: the name must
have been extracted and match the exclusion filter. -/
def fileIsExcluded (cfg : AIConfig) (fileDiff : List Char) : Bool :=
  match extractFileNameFromDiff fileDiff with
  | some n => shouldExcludeFile cfg n
  | none => false

/-- The chunks one kept file segment contributes, before index and label
assignment: its sub-chunks when the classifier asks for a split, else the
whole segment. -/
def fileContents (cfg : AIConfig) (fileDiff : List Char) : List (List Char) :=
  let d := shouldSubChunkFile cfg fileDiff (lineCount fileDiff) fileDiff.length
    (extractFileNameFromDiff fileDiff)
  if d.needsSubChunking then splitLargeFileIntoSubChunks cfg fileDiff d.chunkSize
  else [fileDiff]

/-- The first pass over the split file segments: excluded files are skipped,
files needing a split contribute their sub-chunks, other files contribute
one chunk; each pushed chunk's index is the running length of the
accumulator (`allChunks.length`). -/
def collectFileChunks (cfg : AIConfig) (total : Nat) :
    Nat → List Chunk → List (List Char) → List Chunk
  | _, acc, [] => acc
  | i, acc, fileDiff :: rest =>
    if fileIsExcluded cfg fileDiff then
      collectFileChunks cfg total (i + 1) acc rest
    else
      let fileLines := lineCount fileDiff
      let fileSize := fileDiff.length
      let fileName := extractFileNameFromDiff fileDiff
      let d := shouldSubChunkFile cfg fileDiff fileLines fileSize fileName
      if d.needsSubChunking then
        let subChunks := splitLargeFileIntoSubChunks cfg fileDiff d.chunkSize
        let newChunks := subChunks.enum.map fun p =>
          (⟨p.2, subChunkLabel i p.1 (lineCount p.2) p.2.length,
            acc.length + p.1⟩ : Chunk)
        collectFileChunks cfg total (i + 1) (acc ++ newChunks) rest
      else
        collectFileChunks cfg total (i + 1)
          (acc ++ [⟨fileDiff, fileChunkLabel i total fileLines fileSize fileName,
            acc.length⟩]) rest

/-- The final chunk list of `analyzeDiffInChunks`: collected chunks, merged
when merging is enabled and there is more than one chunk. -/
def planChunks (cfg : AIConfig) (diff : List Char) : List Chunk :=
  let files := splitDiffByFiles diff
  let allChunks := collectFileChunks cfg files.length 0 [] files
  if cfg.chunkMergeEnabled && decide (allChunks.length > 1) then
    mergeSmallChunks cfg allChunks
  else allChunks

/-- Whether `analyzeDiff` takes the chunked path. -/
def takesChunkedPath (cfg : AIConfig) (diff : List Char) : Bool :=
  decide (lineCount diff > cfg.maxDiffLinesForChunking) ||
  decide (diff.length > cfg.maxDiffSizeForChunking)

/-- The texts `analyzeDiff` sends to the model: the final chunk contents on
the chunked path, otherwise the whole diff in a single call. -/
def analyzeDiffPlan (cfg : AIConfig) (diff : List Char) : List (List Char) :=
  if takesChunkedPath cfg diff then (planChunks cfg diff).map (·.content)
  else [diff]

/-! ## The feedback post-processing of `analyzeDiffChunk`

Word extraction mirrors `/\b[a-zA-Z_$][a-zA-Z0-9_$]*\b/g`: `\b` is a word
boundary with word characters `[A-Za-z0-9_]` (the dollar sign is in the
character class but is not a word character), matches are greedy with
backtracking only at the trailing boundary, and the global scan resumes
after each match. -/

def isWordChar (c : Char) : Bool :=
  ('a' ≤ c ∧ c ≤ 'z') ∨ ('A' ≤ c ∧ c ≤ 'Z') ∨ ('0' ≤ c ∧ c ≤ '9') ∨ c = '_'

def isIdentStart (c : Char) : Bool :=
  ('a' ≤ c ∧ c ≤ 'z') ∨ ('A' ≤ c ∧ c ≤ 'Z') ∨ c = '_' ∨ c = '$'

def isIdentChar (c : Char) : Bool := isIdentStart c || isDigitChar c

def wordBoundary (a b : Option Char) : Bool :=
  (match a with | some c => isWordChar c | none => false) !=
  (match b with | some c => isWordChar c | none => false)

/-- The longest end position of a match within an identifier-character run
`r` that satisfies the trailing `\b`, where `next` is the character after
the run; none when every end position fails the boundary. -/
def identEndLen (r : List Char) (next : Option Char) : Option Nat :=
  (((List.range r.length).map (· + 1)).filter fun m =>
    wordBoundary (r.get? (m - 1)) (if m < r.length then r.get? m else next)).getLast?

/-- The global scan of the identifier pattern, driven by a fuel argument:
every step recurses on a proper suffix of the input. -/
def jsWordScanGo : Nat → Option Char → List Char → List (List Char)
  | 0, _, _ => []
  | _, _, [] => []
  | fuel + 1, prev, c :: cs =>
    if isIdentStart c && wordBoundary prev (some c) then
      let r := (c :: cs).takeWhile isIdentChar
      match identEndLen r ((c :: cs).drop r.length).head? with
      | some m =>
        if m = 0 then jsWordScanGo fuel (some c) cs
        else (c :: cs).take m ::
          jsWordScanGo fuel ((c :: cs).take m).getLast? ((c :: cs).drop m)
      | none => jsWordScanGo fuel (some c) cs
    else jsWordScanGo fuel (some c) cs

def jsWordScan (prev : Option Char) (l : List Char) : List (List Char) :=
  jsWordScanGo l.length prev l

/-- Find the next occurrence of the closing quote, returning the enclosed
text and the remainder after the quote. -/
def splitAtChar (q : Char) : List Char → Option (List Char × List Char)
  | [] => none
  | c :: cs =>
    if c = q then some ([], cs)
    else (splitAtChar q cs).map (fun p => (c :: p.1, p.2))

/-- The scan of `/'([^']*)'|"([^"]*)"/g`, driven by a fuel argument: every
step recurses on a proper suffix of the input, so fuel equal to the input
length is never exhausted. -/
def quoteScanGo : Nat → List Char → List (List Char)
  | 0, _ => []
  | _, [] => []
  | fuel + 1, c :: cs =>
    if c = '\'' then
      match splitAtChar '\'' cs with
      | some p => p.1 :: quoteScanGo fuel p.2
      | none => quoteScanGo fuel cs
    else if c = '"' then
      match splitAtChar '"' cs with
      | some p => p.1 :: quoteScanGo fuel p.2
      | none => quoteScanGo fuel cs
    else quoteScanGo fuel cs

/-- `/'([^']*)'|"([^"]*)"/g` with the quotes stripped from each match
(`s.slice(1, -1)`). -/
def quoteScan (l : List Char) : List (List Char) := quoteScanGo l.length l

/-- `[...new Set(ks)]`: deduplication keeping first occurrences, driven by a
fuel argument (each step recurses on a list at most one shorter). -/
def dedupFirstGo : Nat → List (List Char) → List (List Char)
  | 0, _ => []
  | _, [] => []
  | fuel + 1, a :: as => a :: dedupFirstGo fuel (as.filter (fun b => !(b == a)))

def dedupFirst (l : List (List Char)) : List (List Char) :=
  dedupFirstGo l.length l

def kwReqDot : List Char := "req.".data
def kwRequest : List Char := "request".data
def kwReq : List Char := "req".data
def kwResDot : List Char := "res.".data
def kwResponse : List Char := "response".data
def kwRes : List Char := "res".data
def kwSecret : List Char := "secret".data
def kwWebhook : List Char := "webhook".data
def kwSignature : List Char := "signature".data
def kwCrypto : List Char := "crypto".data
def kwRawbody : List Char := "rawbody".data
def kwRawBodyMixed : List Char := "rawBody".data
def kwBody : List Char := "body".data
def kwMiddleware : List Char := "middleware".data
def kwTimingMixed : List Char := "timingSafeEqual".data
def kwIfBang : List Char := "if (!".data
def kwCheck : List Char := "check".data
def kwReturn : List Char := "return".data
def kwError : List Char := "error".data
def kwStatus : List Char := "status".data

def lowerStr (l : List Char) : List Char := l.map Char.toLower

def extractCodeKeywords (code : List Char) : List (List Char) :=
  let ks := jsWordScan none code ++ quoteScan code
  let cl := lowerStr code
  let ks := ks ++ (if occurs kwReqDot cl then [kwRequest, kwReq] else [])
  let ks := ks ++ (if occurs kwResDot cl then [kwResponse, kwRes] else [])
  let ks := ks ++ (if occurs kwSecret cl then [kwSecret, kwWebhook] else [])
  let ks := ks ++ (if occurs kwSignature cl then [kwSignature, kwCrypto] else [])
  let ks := ks ++
    (if occurs kwRawbody cl || occurs kwRawBodyMixed cl then [kwRawbody, kwBody] else [])
  let ks := ks ++ (if occurs kwMiddleware cl then [kwMiddleware] else [])
  let ks := ks ++ (if occurs kwTimingMixed cl then [kwTimingMixed, kwCrypto] else [])
  dedupFirst ks

/-- The relevance score of a comment against the code text at its line, with
the source's weights: +2 per extracted keyword found in the comment, +3 per
identifier occurrence found in the comment, and the four fixed pattern
bonuses. -/
def relevanceScore (actualCode comment : List Char) : Nat :=
  let codeLower := lowerStr actualCode
  let commentLower := lowerStr comment
  let s := (extractCodeKeywords actualCode).foldl
    (fun n k => if occurs (lowerStr k) commentLower then n + 2 else n) 0
  let s := (jsWordScan none actualCode).foldl
    (fun n v => if occurs (lowerStr v) commentLower then n + 3 else n) s
  let s := if occurs kwIfBang codeLower && occurs kwCheck commentLower then s + 2 else s
  let s := if occurs kwReturn codeLower && occurs kwReturn commentLower then s + 1 else s
  let s := if occurs kwError codeLower && occurs kwError commentLower then s + 2 else s
  if occurs kwStatus codeLower && occurs kwStatus commentLower then s + 2 else s

/-! ## Feedback items and the per-chunk response processing -/

structure AIFeedback where
  file : List Char
  line : Int
  comment : List Char
  diffHunk : Option (List Char)
deriving DecidableEq

/-- A raw feedback object from the model, untyped: a missing field is the
source's `undefined`/wrong-type case. -/
structure RawObj where
  file : Option (List Char)
  line : Option Int
  comment : Option (List Char)

/-- A raw element of the model's response array: not an object at all, or an
object with loosely-typed fields. -/
inductive RawItem
  | notObj
  | obj (o : RawObj)

/-- What the model call plus JSON parsing produce for one chunk: a thrown
error (model failure, malformed JSON, timeout), a parsed value that is not
an array, or an array of items. -/
inductive ChunkResponse
  | errorResp
  | nonArray
  | arr (items : List RawItem)

/-- The structural filter of `analyzeDiffChunk`: the item must be an object
with a truthy `file`, a truthy `comment` and a numeric `line`; surviving
items are enriched with the hunk context for their line.  (The source's
`.filter` followed by `.map` is fused into one `filterMap`.) -/
def structuralFilter (diffHunks : List DiffHunk) (items : List RawItem) :
    List AIFeedback :=
  items.filterMap fun it =>
    match it with
    | .notObj => none
    | .obj o =>
      match o.file, o.comment, o.line with
      | some f, some m, some n =>
        if f.isEmpty || m.isEmpty then none
        else some ⟨f, n, m, findDiffHunkForLine diffHunks n⟩
      | _, _, _ => none

/-- The relevance filter of `analyzeDiffChunk`: an item whose line has no
code in the line map is dropped, and so is one whose relevance score is
below 2. -/
def relevanceFilter (lineToCodeMap : List (Int × List Char))
    (items : List AIFeedback) : List AIFeedback :=
  items.filter fun item =>
    match mapGet lineToCodeMap item.line with
    | none => false
    | some actualCode => decide (relevanceScore actualCode item.comment ≥ 2)

/-- `analyzeDiffChunk` on one chunk, given the model response: a thrown
error or a non-array response contributes the empty list; an array is
validated and enriched against the chunk's hunks and line map. -/
def analyzeDiffChunkModel (resp : ChunkResponse) (diffChunk : List Char) :
    List AIFeedback :=
  match resp with
  | .errorResp => []
  | .nonArray => []
  | .arr items =>
    relevanceFilter (buildLineToCodeMap diffChunk)
      (structuralFilter (extractDiffHunks diffChunk) items)

/-! ## Batch orchestration (the parallel loop of `analyzeDiffInChunks`) -/

/-- The oracle outcome of one chunk's analysis call: a rejection caught by
the orchestrator's own try/catch, or a response handled inside
`analyzeDiffChunk`. -/
inductive ChunkOutcome
  | outerThrow
  | resp (r : ChunkResponse)

def chunkContribution (o : ChunkOutcome) (content : List Char) : List AIFeedback :=
  match o with
  | .outerThrow => []
  | .resp r => analyzeDiffChunkModel r content

/-- The batch loop: groups of `batchSize` chunks are analyzed, each group's
results are collected in chunk order and appended, and the loop advances by
`batchSize`.  `i` is the absolute index of the group's first chunk.  (With
`batchSize = 0` the source's loop would not advance; that case is
unreachable for the configured sizes.) -/
def orchestrateGo (out : Nat → ChunkOutcome) (batchSize : Nat) :
    Nat → Nat → List Chunk → List AIFeedback
  | 0, _, _ => []
  | _, _, [] => []
  | fuel + 1, i, c :: cs =>
    if batchSize = 0 then []
    else
      let batch := (c :: cs).take batchSize
      let batchResults := batch.enum.map fun p =>
        chunkContribution (out (i + p.1)) p.2.content
      batchResults.flatten ++
        orchestrateGo out batchSize fuel (i + batchSize) ((c :: cs).drop batchSize)

def orchestrate (out : Nat → ChunkOutcome) (batchSize : Nat) (i : Nat)
    (cs : List Chunk) : List AIFeedback :=
  orchestrateGo out batchSize cs.length i cs

/-! ## The local validation index (`buildValidationMap`,
`validateCommentLocally` of the review processor) -/

def alGet {β : Type} (m : List (List Char × β)) (k : List Char) : Option β :=
  (m.find? (fun e => e.1 == k)).map (·.2)

def alSet {β : Type} (m : List (List Char × β)) (k : List Char) (v : β) :
    List (List Char × β) :=
  if m.any (fun e => e.1 == k) then
    m.map (fun e => if e.1 == k then (k, v) else e)
  else m ++ [(k, v)]

def setAddInt (s : List Int) (n : Int) : List Int :=
  if s.contains n then s else s ++ [n]

def setAddStr (s : List (List Char)) (f : List Char) : List (List Char) :=
  if s.contains f then s else s ++ [f]

structure ValidationMap where
  files : List (List Char)
  fileLines : List (List Char × List Int)
  diffHunks : List (List Char × List (List Char))

structure VMState where
  vm : ValidationMap
  currentFile : List Char
  currentHunkLines : List (List Char)
  cur : Int
  inHunk : Bool

/-- Append the pending hunk lines to the current file's recorded hunk text
(`diffHunks.set(f, [...(diffHunks.get(f) || []), ...currentHunkLines])`). -/
def vmFlush (s : VMState) : VMState :=
  let hs := ((alGet s.vm.diffHunks s.currentFile).getD []) ++ s.currentHunkLines
  { s with vm := { s.vm with diffHunks := alSet s.vm.diffHunks s.currentFile hs } }

def vmAddLine (s : VMState) : VMState :=
  let ls := setAddInt ((alGet s.vm.fileLines s.currentFile).getD []) s.cur
  { s with
    vm := { s.vm with fileLines := alSet s.vm.fileLines s.currentFile ls },
    cur := s.cur + 1 }

/-- One line of `buildValidationMap`'s loop. -/
def vmStep (s : VMState) (line : List Char) : VMState :=
  if pfx dgMark line then
    let s := if s.currentFile ≠ [] ∧ s.currentHunkLines ≠ [] then vmFlush s else s
    let s := match reDiffGit line with
      | some f =>
        { s with currentFile := f,
                 vm := { s.vm with
                   files := setAddStr s.vm.files f,
                   fileLines := if (alGet s.vm.fileLines f).isSome then s.vm.fileLines
                     else s.vm.fileLines ++ [(f, [])] } }
      | none => s
    { s with currentHunkLines := [], inHunk := false }
  else if s.currentFile ≠ [] ∧ pfx hdrMark line then
    let s := if s.currentHunkLines ≠ [] then vmFlush s else s
    match reHunkHeader line with
    | some c => { s with cur := (c : Int), currentHunkLines := [line], inHunk := true }
    | none => s
  else if s.inHunk ∧ s.currentFile ≠ [] then
    let s := { s with currentHunkLines := s.currentHunkLines ++ [line] }
    if pfx plusMark line then vmAddLine s
    else if pfx spaceMark line then vmAddLine s
    else
      -- removed lines do not advance the counter; other lines are skipped
      s
  else s

def vmInit : VMState := ⟨⟨[], [], []⟩, [], [], 0, false⟩

def buildValidationMap (diff : List Char) : ValidationMap :=
  let fin := (splitLines diff).foldl vmStep vmInit
  (if fin.currentFile ≠ [] ∧ fin.currentHunkLines ≠ [] then vmFlush fin else fin).vm

/-- The local validator: the file must be a key of the index, the line must
be in the file's valid-line set, and the file must have recorded hunk
text. -/
def validateCommentLocally (item : AIFeedback) (vm : ValidationMap) : Bool :=
  vm.files.contains item.file &&
  (match alGet vm.fileLines item.file with
   | some s => s.contains item.line
   | none => false) &&
  (match alGet vm.diffHunks item.file with
   | some hs => !hs.isEmpty
   | none => false)

/-! ## The spec's re-scan (reference definition for validation soundness)

Modelled from the spec: "for every `(file, line)` accepted by the
ValidationIndex, a direct re-scan of the diff must show that line is an
added or context line inside some hunk of that file".  The re-scan walks the
diff once: a per-file header line starts a new segment whose path is the
header's parse result (null on failure, §4.1); a hunk header opens a hunk at
its new-file start, and a malformed header ends the previous hunk and is
ignored (§4.2); inside a hunk, added and context lines occupy the counter
and advance it, removed lines do not, and other lines are skipped. -/

structure RescanState where
  path : Option (List Char)
  cur : Int
  inHunk : Bool
  valid : List (List Char × Int)

def rescanStep (s : RescanState) (line : List Char) : RescanState :=
  if pfx dgMark line then
    { s with path := reDiffGit line, inHunk := false }
  else if pfx hdrMark line then
    match reHunkHeader line with
    | some c => { s with cur := (c : Int), inHunk := true }
    | none => { s with inHunk := false }
  else if s.inHunk then
    if pfx plusMark line || pfx spaceMark line then
      { s with
        valid := s.valid ++ (match s.path with | some f => [(f, s.cur)] | none => []),
        cur := s.cur + 1 }
    else s
  else s

def rescanInit : RescanState := ⟨none, 0, false, []⟩

/-- Whether a direct re-scan of the diff shows `(f, n)` as an added or
context line of a hunk of file `f`. -/
def rescanValidLine (diff : List Char) (f : List Char) (n : Int) : Bool :=
  (((splitLines diff).foldl rescanStep rescanInit).valid).contains (f, n)

/-! ## Vocabulary for the statements -/

/-- The lines of a list of text chunks, concatenated in order. -/
def chunksLines (cs : List (List Char)) : List (List Char) :=
  (cs.map splitLines).flatten

/-- The non-removed (added or context) content lines of a hunk body. -/
def nonRemoved (body : List (List Char)) : List (List Char) :=
  body.filter (fun l => pfx plusMark l || pfx spaceMark l)

/-- The line-map entries the spec's counting rule prescribes for a hunk with
new-file start `c`: scanning the body in order, each added or context line
is assigned the next line number starting from `c` (so the k-th non-removed
line, 1-indexed, gets `c + k - 1`) with its marker character stripped, and
removed and unrecognised lines are assigned nothing and do not advance the
counter. -/
def hunkLineEntries (c : Int) : List (List Char) → List (Int × List Char)
  | [] => []
  | l :: body =>
    if pfx plusMark l || pfx spaceMark l then
      (c, l.drop 1) :: hunkLineEntries (c + 1) body
    else hunkLineEntries c body

/-- A line that neither opens a new hunk nor a new file segment: the hunk
body lines of the mapper's counting rule. -/
def plainLine (l : List Char) : Bool := !pfx hdrMark l && !pfx dgMark l

/-- Every line of the diff that announces a file or a hunk parses: the
well-formedness under which the one-pass index and the spec's re-scan
agree. -/
def headersParse (diff : List Char) : Prop :=
  ∀ l ∈ splitLines diff,
    (pfx dgMark l = true → (reDiffGit l).isSome) ∧
    (pfx hdrMark l = true → (reHunkHeader l).isSome)

instance (diff : List Char) : Decidable (headersParse diff) := by
  unfold headersParse; infer_instance

/-- What flushing one batch emits when the output so far has length `i`: a
singleton batch is its chunk unchanged, a longer batch is joined with a
blank line and indexed by its output position. -/
def finalizeOne (b : List Chunk) (i : Nat) : Chunk :=
  match b with
  | [c] => c
  | _ => ⟨joinSep nnSep (b.map (·.content)), mergedLabel b, i⟩

/-- Rendering of a batch decomposition as the merger emits it. -/
def renderBatches (bs : List (List Chunk)) : List Chunk :=
  bs.enum.map fun p => finalizeOne p.2 p.1

/-- Sum of the line counts the merger tracks for a batch. -/
def batchLines (b : List Chunk) : Nat := (b.map (fun c => lineCount c.content)).sum

/-- Sum of the character counts the merger tracks for a batch. -/
def batchSize (b : List Chunk) : Nat := (b.map (fun c => c.content.length)).sum

/-- Whether the one-pass validation index records line `n` for file `f`. -/
def vmHasLine (vm : ValidationMap) (f : List Char) (n : Int) : Bool :=
  match alGet vm.fileLines f with
  | some s => s.contains n
  | none => false

/-- The coupling between the one-pass index builder's state and the spec
re-scan's state: both record the same `(file, line)` pairs, the `files` set
is exactly the key set of `fileLines`, the current file and hunk position
agree, every file with a recorded line has recorded (or pending) hunk text,
the current file always has a `fileLines` entry, and the empty name is never
a key. -/
def Coupled (s : VMState) (r : RescanState) : Prop :=
  (∀ f n, vmHasLine s.vm f n = r.valid.contains (f, n)) ∧
  (∀ f, s.vm.files.contains f = (alGet s.vm.fileLines f).isSome) ∧
  ((s.currentFile = [] ∧ r.path = none ∧ s.inHunk = false) ∨
    (s.currentFile ≠ [] ∧ r.path = some s.currentFile ∧ s.inHunk = r.inHunk ∧
      (s.inHunk = true → s.cur = r.cur))) ∧
  (∀ f, (∃ n, vmHasLine s.vm f n = true) →
    ((alGet s.vm.diffHunks f).getD [] ≠ [] ∨
      (s.currentFile = f ∧ s.currentHunkLines ≠ []))) ∧
  (s.currentFile ≠ [] → (alGet s.vm.fileLines s.currentFile).isSome) ∧
  alGet s.vm.fileLines [] = none

/-- The invariant tying the merger's loop state to the input consumed so
far: the emitted chunks render a batch decomposition of the consumed input
minus the open batch, every closed multi-element batch respects the hard
maximum in both tracked measures, the running totals are the open batch's
sums, and an open multi-element batch already respects the hard maximum. -/
def MRel (cfg : AIConfig) (inp : List Chunk) (s : MergeState) : Prop :=
  ∃ bs : List (List Chunk),
    bs.flatten ++ s.batch = inp ∧
    (∀ b ∈ bs, b ≠ []) ∧
    s.out = renderBatches bs ∧
    (∀ b ∈ bs, 2 ≤ b.length →
      batchLines b ≤ cfg.maxChunkSize ∧ batchSize b ≤ cfg.maxChunkSize * 1000) ∧
    s.bLines = batchLines s.batch ∧
    s.bSize = batchSize s.batch ∧
    (2 ≤ s.batch.length →
      s.bLines ≤ cfg.maxChunkSize ∧ s.bSize ≤ cfg.maxChunkSize * 1000)

/-! ## Concrete inputs for counterexamples and witnesses -/

/-- A diff whose leading preamble is a single empty line: whitespace-only,
so the splitter drops it instead of attaching it. -/
def cexDiff3 : List Char := "\ndiff --git a/x b/x\n+1".data

/-- A file segment with interior blank lines, for the sub-chunker. -/
def cexSubChunkFile : List Char := "a\n\n\nb".data

/-- A hunk header declaring new-file start 0: syntactically valid, but the
mapper's `currentHunkStartLine > 0` guard assigns its lines nothing. -/
def cexHdr0 : List Char := "@@ -1,1 +0,1 @@".data

/-- An added line. -/
def cexPlusX : List Char := "+x".data

/-- A one-hunk chunk whose header declares new-file start 0. -/
def cexDiff1 : List Char := "@@ -1,1 +0,1 @@\n+x".data

/-- The spec's example hunk: a removed line first, one context line, two
added lines, with new-file start 10. -/
def exPre1 : List (List Char) := ["diff --git a/app.py b/app.py".data]
def exHdr10 : List Char := "@@ -10,3 +10,4 @@".data
def exBody10 : List (List Char) :=
  ["-removed".data, " ctx".data, "+a1".data, "+a2".data]

/-- A chunk with one hunk containing a context line and a removed line: one
non-removed content line, but two content lines in all. -/
def cexDiff8 : List Char := "@@ -1,2 +1,1 @@\n a\n-b".data

/-- A segment whose file header line fails the two-path-token parse but
which contains a `+++ b/` line. -/
def cexSeg9 : List Char := "diff --git x y\n+++ b/app.ts".data

/-- The header line of `cexSeg9`. -/
def cexSeg9Hdr : List Char := "diff --git x y".data

/-- The `+++` line of `cexSeg9`. -/
def cexSeg9Ppp : List Char := "+++ b/app.ts".data

/-- A 100-line chunk content (100 copies of `a`, newline-joined). -/
def cexC100 : List Char := joinSep ['\n'] (List.replicate 100 ['a'])

def cexChunkA : Chunk := ⟨cexC100, ['L', '1'], 0⟩
def cexChunkB : Chunk := ⟨cexC100, ['L', '2'], 1⟩

/-- A small diff touching only `package-lock.json`: it stays under the
chunking thresholds, so `analyzeDiff` sends it whole. -/
def cexDiff7 : List Char :=
  "diff --git a/package-lock.json b/package-lock.json\n@@ -1,1 +1,1 @@\n+x".data

def pkgLockName : List Char := "package-lock.json".data

/-- A configuration with tiny chunking thresholds, to drive small inputs
down the chunked path. -/
def witCfg7 : AIConfig := { maxDiffLinesForChunking := 1, maxDiffSizeForChunking := 1 }

/-- The C2 counterexample diff: a wellformed file header and hunk, then a
malformed hunk header line, then one more context line. -/
def cexDiff2 : List Char := "diff --git a/f b/f\n@@ -1,1 +1,1 @@\n x\n@@ junk\n y".data

def cexFileF : List Char := "f".data

def cexItem2 : AIFeedback := ⟨cexFileF, 2, [], none⟩

def witDiff2 : List Char := "diff --git a/f b/f\n@@ -1,1 +1,1 @@\n x\n+y".data

def witItem2 : AIFeedback := ⟨cexFileF, 2, [], none⟩

/-! # Theorems -/

theorem splitLines_ne_nil (s : List Char) : splitLines s ≠ [] := by
  cases s with
  | nil => simp [splitLines]
  | cons c cs =>
    simp only [splitLines]
    split
    · simp
    · split <;> simp

theorem mem_splitLines_no_newline (s : List Char) :
    ∀ l ∈ splitLines s, '\n' ∉ l := by
  induction s with
  | nil => intro l hl; simp [splitLines] at hl; simp [hl]
  | cons c cs ih =>
    intro l hl
    simp only [splitLines] at hl
    by_cases hc : c = '\n'
    · simp [hc] at hl
      rcases hl with h | h
      · simp [h]
      · exact ih l h
    · simp [hc] at hl
      rcases hcs : splitLines cs with _ | ⟨r, rs⟩
      · exact absurd hcs (splitLines_ne_nil cs)
      · rw [hcs] at hl
        simp at hl
        rcases hl with h | h
        · subst h
          intro hmem
          rcases List.mem_cons.mp hmem with h | h
          · exact hc h.symm
          · exact ih r (by rw [hcs]; exact List.mem_cons_self r rs) h
        · exact ih l (by rw [hcs]; exact List.mem_cons_of_mem r h)

theorem joinLines_cons₂ (l a : List Char) (rest : List (List Char)) :
    joinLines (l :: a :: rest) = l ++ '\n' :: joinLines (a :: rest) := rfl

theorem joinLines_splitLines (s : List Char) : joinLines (splitLines s) = s := by
  induction s with
  | nil => rfl
  | cons c cs ih =>
    simp only [splitLines]
    rcases hcs : splitLines cs with _ | ⟨r, rs⟩
    · exact absurd hcs (splitLines_ne_nil cs)
    · by_cases hc : c = '\n'
      · simp only [if_pos hc, hcs, joinLines_cons₂]
        rw [hcs] at ih
        simp [ih, hc]
      · simp only [if_neg hc, hcs]
        rw [hcs] at ih
        cases rs with
        | nil => simp [joinLines] at ih ⊢; exact ih
        | cons a rest =>
          rw [joinLines_cons₂] at ih ⊢
          simp [ih]

theorem splitLines_no_newline (l : List Char) (hl : '\n' ∉ l) :
    splitLines l = [l] := by
  induction l with
  | nil => rfl
  | cons c cs ih =>
    simp only [splitLines]
    have hc : c ≠ '\n' := fun h => hl (h ▸ List.mem_cons_self c cs)
    rw [if_neg hc, ih (fun h => hl (List.mem_cons_of_mem c h))]

theorem splitLines_append_newline (l t : List Char) (hl : '\n' ∉ l) :
    splitLines (l ++ '\n' :: t) = l :: splitLines t := by
  induction l with
  | nil => simp [splitLines]
  | cons c cs ih =>
    have hc : c ≠ '\n' := fun h => hl (h ▸ List.mem_cons_self c cs)
    have ih' := ih (fun h => hl (List.mem_cons_of_mem c h))
    simp only [List.cons_append, splitLines, if_neg hc]
    rw [show cs.append ('\n' :: t) = cs ++ '\n' :: t from rfl, ih']

theorem splitLines_joinLines (ls : List (List Char)) (hne : ls ≠ [])
    (hnl : ∀ l ∈ ls, '\n' ∉ l) : splitLines (joinLines ls) = ls := by
  induction ls with
  | nil => exact absurd rfl hne
  | cons l rest ih =>
    cases rest with
    | nil =>
      simp only [joinLines]
      exact splitLines_no_newline l (hnl l (List.mem_cons_self l []))
    | cons a rest' =>
      rw [joinLines_cons₂]
      rw [splitLines_append_newline l _ (hnl l (List.mem_cons_self l _))]
      rw [ih (by simp) (fun x hx => hnl x (List.mem_cons_of_mem l hx))]

theorem allWS_append (a b : List Char) :
    allWS (a ++ b) = (allWS a && allWS b) := by
  simp [allWS, List.all_append]

theorem allWS_joinLines (ls : List (List Char)) :
    allWS (joinLines ls) = ls.all allWS := by
  induction ls with
  | nil => rfl
  | cons l rest ih =>
    cases rest with
    | nil => simp [joinLines]
    | cons a rest' =>
      rw [joinLines_cons₂, allWS_append]
      simp only [List.all_cons] at ih ⊢
      rw [← ih]
      simp [allWS, isWSChar]

/-! ## The Diff Splitter's round trip (C3) -/

theorem chunksLines_append (a b : List (List Char)) :
    chunksLines (a ++ b) = chunksLines a ++ chunksLines b := by
  simp [chunksLines]

theorem dgMark_not_ws {l : List Char} (h : pfx dgMark l = true) :
    allWS l = false := by
  rcases List.isPrefixOf_iff_prefix.mp h with ⟨t, ht⟩
  subst ht
  rw [allWS_append]
  have : allWS dgMark = false := by decide
  simp [this]

theorem chunksLines_saveChunk (cs : List (List Char)) (cur : List (List Char))
    (hne : cur ≠ []) (hnws : cur.all allWS = false)
    (hnl : ∀ l ∈ cur, '\n' ∉ l) :
    chunksLines (saveChunk cs cur) = chunksLines cs ++ cur := by
  unfold saveChunk
  rw [if_pos]
  · rw [chunksLines_append]
    simp [chunksLines, splitLines_joinLines cur hne hnl]
  · simp [List.isEmpty_iff, hne, allWS_joinLines, hnws]

theorem saveChunk_all_nonWS (cs : List (List Char)) (cur : List (List Char))
    (h : ∀ ch ∈ cs, allWS ch = false) :
    ∀ ch ∈ saveChunk cs cur, allWS ch = false := by
  intro ch hch
  unfold saveChunk at hch
  split at hch
  · rename_i hcond
    rcases List.mem_append.mp hch with hm | hm
    · exact h ch hm
    · simp at hm
      subst hm
      simp at hcond
      exact hcond.2
  · exact h ch hch

theorem splitFold_lines :
    ∀ (ls : List (List Char)) (acc : SplitAcc),
      acc.cur ≠ [] → acc.cur.all allWS = false →
      (∀ l ∈ acc.cur, '\n' ∉ l) → (∀ l ∈ ls, '\n' ∉ l) →
      (∀ ch ∈ acc.chunks, allWS ch = false) →
      chunksLines (saveChunk (ls.foldl splitStep acc).chunks
          (ls.foldl splitStep acc).cur) =
        chunksLines acc.chunks ++ acc.cur ++ ls ∧
      ∀ ch ∈ saveChunk (ls.foldl splitStep acc).chunks
          (ls.foldl splitStep acc).cur, allWS ch = false := by
  intro ls
  induction ls with
  | nil =>
    intro acc h1 h2 h3 _ h5
    refine ⟨?_, saveChunk_all_nonWS _ _ h5⟩
    simp only [List.foldl_nil]
    rw [chunksLines_saveChunk _ _ h1 h2 h3]
    simp
  | cons l ls ih =>
    intro acc h1 h2 h3 h4 h5
    have hnl : '\n' ∉ l := h4 l (List.mem_cons_self l ls)
    have h4' : ∀ x ∈ ls, '\n' ∉ x := fun x hx => h4 x (List.mem_cons_of_mem l hx)
    simp only [List.foldl_cons]
    by_cases hdg : pfx dgMark l = true
    · have hstep : splitStep acc l = ⟨saveChunk acc.chunks acc.cur, [l]⟩ := by
        simp [splitStep, hdg]
      rw [hstep]
      have := ih ⟨saveChunk acc.chunks acc.cur, [l]⟩ (by simp)
        (by simpa using dgMark_not_ws hdg)
        (by intro x hx; simp at hx; subst hx; exact hnl) h4'
        (saveChunk_all_nonWS _ _ h5)
      refine ⟨?_, this.2⟩
      rw [this.1]
      simp only
      rw [chunksLines_saveChunk _ _ h1 h2 h3]
      simp
    · have hstep : splitStep acc l = ⟨acc.chunks, acc.cur ++ [l]⟩ := by
        simp only [splitStep]
        rw [if_neg (by simpa using hdg)]
      rw [hstep]
      have := ih ⟨acc.chunks, acc.cur ++ [l]⟩ (by simp)
        (by simp [List.all_append, h2])
        (by intro x hx
            rcases List.mem_append.mp hx with hm | hm
            · exact h3 x hm
            · simp at hm; subst hm; exact hnl)
        h4' h5
      refine ⟨?_, this.2⟩
      rw [this.1]
      simp

theorem splitFold_preamble :
    ∀ (pre : List (List Char)) (acc : SplitAcc),
      (∀ l ∈ pre, pfx dgMark l = false) →
      pre.foldl splitStep acc = ⟨acc.chunks, acc.cur ++ pre⟩ := by
  intro pre
  induction pre with
  | nil => intro acc _; simp
  | cons l ls ih =>
    intro acc h
    have hl : pfx dgMark l = false := h l (List.mem_cons_self l ls)
    simp only [List.foldl_cons]
    have hstep : splitStep acc l = ⟨acc.chunks, acc.cur ++ [l]⟩ := by
      simp only [splitStep]
      rw [if_neg (by simp [hl])]
    rw [hstep, ih ⟨acc.chunks, acc.cur ++ [l]⟩
      (fun x hx => h x (List.mem_cons_of_mem l hx))]
    simp

theorem dropWhile_head_false {α : Type} {p : α → Bool} :
    ∀ (ls : List α) (r : α) (rs : List α),
      ls.dropWhile p = r :: rs → p r = false := by
  intro ls
  induction ls with
  | nil => intro r rs h; simp [List.dropWhile] at h
  | cons a as ih =>
    intro r rs h
    rw [List.dropWhile_cons] at h
    by_cases ha : p a = true
    · rw [if_pos ha] at h
      exact ih r rs h
    · rw [if_neg ha] at h
      cases h
      simpa using ha

/-- C3 — corrected.  The splitter assigns every input line to one output
segment, but a whitespace-only leading preamble is dropped rather than
attached to the first segment: concatenating the output segments' lines
reproduces the input lines with such a preamble removed, and reproduces them
exactly whenever the preamble is empty or contains a non-whitespace
character. -/
theorem splitDiffByFiles_roundtrip (diff : List Char) :
    chunksLines (splitDiffByFiles diff) =
      (if ((splitLines diff).takeWhile (fun l => !pfx dgMark l)).all allWS &&
          !((splitLines diff).takeWhile (fun l => !pfx dgMark l)).isEmpty then
        (splitLines diff).drop
          ((splitLines diff).takeWhile (fun l => !pfx dgMark l)).length
      else splitLines diff) := by
  have hsplit := List.takeWhile_append_dropWhile
    (p := fun l => !pfx dgMark l) (l := splitLines diff)
  set ls := splitLines diff with hls
  set pre := ls.takeWhile (fun l => !pfx dgMark l) with hpre
  set rest := ls.dropWhile (fun l => !pfx dgMark l) with hrest
  have hnl : ∀ l ∈ ls, '\n' ∉ l := mem_splitLines_no_newline diff
  have hprenl : ∀ l ∈ pre, '\n' ∉ l := fun l hl =>
    hnl l (by rw [← hsplit]; exact List.mem_append.mpr (Or.inl hl))
  have hpredg : ∀ l ∈ pre, pfx dgMark l = false := by
    intro l hl
    have := List.mem_takeWhile_imp (l := ls) (p := fun l => !pfx dgMark l) hl
    simpa using this
  have hfold : ls.foldl splitStep ⟨[], []⟩ = rest.foldl splitStep ⟨[], pre⟩ := by
    conv_lhs => rw [← hsplit]
    rw [List.foldl_append, splitFold_preamble pre ⟨[], []⟩ hpredg]
    simp
  have hdrop : ls.drop pre.length = rest := by
    conv_lhs => rw [← hsplit]
    exact List.drop_left pre rest
  unfold splitDiffByFiles
  rw [← hls, hfold]
  rcases hr : rest with _ | ⟨r, rs⟩
  · -- no file header line in the diff: the whole input is the preamble
    have hpe : pre = ls := by rw [← hsplit, hr]; simp
    dsimp only
    simp only [List.foldl_nil]
    by_cases hws : pre.all allWS = true
    · have hsave : saveChunk [] pre = [] := by
        unfold saveChunk
        rw [if_neg]
        simp [allWS_joinLines, hws]
      rw [hsave]
      have hne : pre ≠ [] := by
        rw [hpe]; exact splitLines_ne_nil diff
      rw [if_pos (by simp [hws, List.isEmpty_iff, hne])]
      rw [hdrop, hr]
      simp [chunksLines]
    · have hne : pre ≠ [] := by
        intro h; rw [h] at hws; simp at hws
      have hsave := chunksLines_saveChunk [] pre hne (by simpa using hws) hprenl
      rw [if_neg (by simp [hws])]
      have hall := saveChunk_all_nonWS [] pre (by simp)
      rw [List.filter_eq_self.mpr (by intro a ha; simpa using hall a ha)]
      rw [hsave, hpe]
      simp [chunksLines]
  · -- the diff has a file header; `r` is the first one
    have hdw : ls.dropWhile (fun l => !pfx dgMark l) = r :: rs := by
      rw [← hrest]; exact hr
    have hrdg : pfx dgMark r = true := by
      have := dropWhile_head_false (p := fun l => !pfx dgMark l) ls r rs hdw
      simpa using this
    have hrsnl : ∀ l ∈ rs, '\n' ∉ l := by
      intro l hl
      refine hnl l ?_
      rw [← hsplit, hr]
      exact List.mem_append.mpr (Or.inr (List.mem_cons_of_mem r hl))
    have hrnl : '\n' ∉ r := by
      refine hnl r ?_
      rw [← hsplit, hr]
      exact List.mem_append.mpr (Or.inr (List.mem_cons_self r rs))
    dsimp only
    simp only [List.foldl_cons]
    have hstep : splitStep ⟨[], pre⟩ r = ⟨saveChunk [] pre, [r]⟩ := by
      simp [splitStep, hrdg]
    rw [hstep]
    have hmain := splitFold_lines rs ⟨saveChunk [] pre, [r]⟩ (by simp)
      (by simpa using dgMark_not_ws hrdg)
      (by intro x hx; simp at hx; subst hx; exact hrnl)
      hrsnl
      (saveChunk_all_nonWS [] pre (by simp))
    rw [List.filter_eq_self.mpr (by intro a ha; simpa using hmain.2 a ha)]
    rw [hmain.1]
    by_cases hpe : pre = []
    · have hcond : (pre.all allWS && !pre.isEmpty) = false := by
        simp [hpe]
      rw [hcond]
      simp only [Bool.false_eq_true, if_false]
      rw [← hsplit, hr, hpe]
      simp [saveChunk, chunksLines]
    · by_cases hws : pre.all allWS = true
      · have hsave : saveChunk [] pre = [] := by
          unfold saveChunk
          rw [if_neg]
          simp [allWS_joinLines, hws]
        rw [hsave, if_pos (by simp [hws, List.isEmpty_iff, hpe]), hdrop, hr]
        simp [chunksLines]
      · have hsave := chunksLines_saveChunk [] pre hpe (by simpa using hws) hprenl
        rw [if_neg (by simp [hws]), hsave, ← hsplit, hr]
        simp [chunksLines]

/-- C3 — the claim as stated fails: for the diff whose first line is empty,
the concatenated output lines lose that preamble line instead of keeping it
with the first segment. -/
theorem splitDiffByFiles_roundtrip_cex :
    chunksLines (splitDiffByFiles cexDiff3) ≠ splitLines cexDiff3 := by
  decide

/-! ## The Sub-Chunker's round trip (C4) -/

theorem windowsGo_flatten (n : Nat) (hn : 0 < n) :
    ∀ (fuel : Nat) (ls : List (List Char)), ls.length ≤ fuel →
      (windowsGo fuel n ls).flatten = ls := by
  intro fuel
  induction fuel with
  | zero =>
    intro ls hl
    rw [show ls = [] from List.eq_nil_of_length_eq_zero (Nat.le_zero.mp hl)]
    rfl
  | succ fuel ih =>
    intro ls hl
    cases ls with
    | nil => rfl
    | cons l ls =>
      rw [windowsGo, if_neg (by omega), List.flatten_cons,
        ih _ (by simp [List.length_drop] at hl ⊢; omega)]
      exact List.take_append_drop n (l :: ls)

theorem windows_flatten (n : Nat) (hn : 0 < n) (ls : List (List Char)) :
    (windows n ls).flatten = ls :=
  windowsGo_flatten n hn ls.length ls (Nat.le_refl _)

theorem windowsGo_mem (n : Nat) :
    ∀ (fuel : Nat) (ls : List (List Char)), ∀ w ∈ windowsGo fuel n ls,
      w ≠ [] ∧ w.length ≤ n ∧ ∀ x ∈ w, x ∈ ls := by
  intro fuel
  induction fuel with
  | zero => intro ls w hw; simp [windowsGo] at hw
  | succ fuel ih =>
    intro ls w hw
    cases ls with
    | nil => simp [windowsGo] at hw
    | cons l ls =>
      rw [windowsGo] at hw
      by_cases h : n = 0
      · rw [if_pos h] at hw; simp at hw
      · rw [if_neg h] at hw
        rcases List.mem_cons.mp hw with hw | hw
        · subst hw
          refine ⟨by simp [List.take_eq_nil_iff, h], by simp, ?_⟩
          intro x hx
          exact List.mem_of_mem_take hx
        · rcases ih _ w hw with ⟨h1, h2, h3⟩
          exact ⟨h1, h2, fun x hx => List.mem_of_mem_drop (h3 x hx)⟩

theorem windows_mem (n : Nat) (ls : List (List Char)) :
    ∀ w ∈ windows n ls, w ≠ [] ∧ w.length ≤ n ∧ ∀ x ∈ w, x ∈ ls :=
  windowsGo_mem n ls.length ls

/-- C4 — corrected.  The sub-chunker windows are consecutive,
non-overlapping slices of at most `chunkSize` lines whose concatenation is
exactly the segment's lines; the emitted sub-chunks are the non-whitespace
windows, so no emitted sub-chunk is empty or whitespace-only, and the
concatenation of the emitted sub-chunks reproduces the segment's lines
exactly whenever no window is whitespace-only (whitespace-only windows are
dropped, not reproduced). -/
theorem splitLargeFileIntoSubChunks_spec (cfg : AIConfig) (fileDiff : List Char)
    (chunkSize : Option Nat) (hn : 0 < actualSubChunkSize cfg chunkSize) :
    (windows (actualSubChunkSize cfg chunkSize) (splitLines fileDiff)).flatten =
      splitLines fileDiff ∧
    (∀ w ∈ windows (actualSubChunkSize cfg chunkSize) (splitLines fileDiff),
      w ≠ [] ∧ w.length ≤ actualSubChunkSize cfg chunkSize) ∧
    (∀ sc ∈ splitLargeFileIntoSubChunks cfg fileDiff chunkSize, allWS sc = false) ∧
    ((∀ w ∈ windows (actualSubChunkSize cfg chunkSize) (splitLines fileDiff),
        w.all allWS = false) →
      chunksLines (splitLargeFileIntoSubChunks cfg fileDiff chunkSize) =
        splitLines fileDiff) := by
  set n := actualSubChunkSize cfg chunkSize with hnn
  have hmem := windows_mem n (splitLines fileDiff)
  have hnlw : ∀ w ∈ windows n (splitLines fileDiff), ∀ x ∈ w, '\n' ∉ x := by
    intro w hw x hx
    exact mem_splitLines_no_newline fileDiff x ((hmem w hw).2.2 x hx)
  refine ⟨windows_flatten n hn _, fun w hw => ⟨(hmem w hw).1, (hmem w hw).2.1⟩, ?_, ?_⟩
  · intro sc hsc
    unfold splitLargeFileIntoSubChunks at hsc
    rw [← hnn] at hsc
    have := List.of_mem_filter hsc
    simpa using this
  · intro hall
    unfold splitLargeFileIntoSubChunks
    rw [← hnn]
    have hfilter : ((windows n (splitLines fileDiff)).map joinLines).filter
        (fun c => !allWS c) = (windows n (splitLines fileDiff)).map joinLines := by
      apply List.filter_eq_self.mpr
      intro a ha
      rcases List.mem_map.mp ha with ⟨w, hw, hwa⟩
      subst hwa
      simp [allWS_joinLines, hall w hw]
    rw [hfilter]
    unfold chunksLines
    have hmap : (windows n (splitLines fileDiff)).map (fun w => splitLines (joinLines w)) =
        (windows n (splitLines fileDiff)).map id := by
      apply List.map_congr_left
      intro w hw
      simp only [id]
      exact splitLines_joinLines w (hmem w hw).1 (hnlw w hw)
    rw [List.map_map, Function.comp_def, hmap]
    simp only [List.map_id]
    exact windows_flatten n hn _

/-- C4 — the claim as stated fails: with chunk size 1, a segment containing
blank lines loses them (its whitespace-only windows are dropped), so the
emitted sub-chunks do not concatenate back to the segment's lines. -/
theorem splitLargeFileIntoSubChunks_cex :
    chunksLines (splitLargeFileIntoSubChunks defaultAIConfig cexSubChunkFile (some 1)) ≠
      splitLines cexSubChunkFile := by
  decide

/-! ## The Hunk/Line Mapper's counting rule (C1) -/

theorem pfx_false_of_ne_head (a b : Char) (hab : (a == b) = false) (p t : List Char) :
    pfx (a :: p) (b :: t) = false := by
  simp [pfx, List.isPrefixOf, hab]

theorem hdr_shape {l : List Char} (h : pfx hdrMark l = true) :
    ∃ t, l = '@' :: '@' :: ' ' :: t := by
  rcases List.isPrefixOf_iff_prefix.mp h with ⟨t, ht⟩
  exact ⟨t, ht.symm⟩

theorem hdr_not_dg {l : List Char} (h : pfx hdrMark l = true) :
    pfx dgMark l = false := by
  rcases hdr_shape h with ⟨t, ht⟩
  subst ht
  exact pfx_false_of_ne_head 'd' '@' rfl _ _

theorem hdr_not_plus {l : List Char} (h : pfx hdrMark l = true) :
    pfx plusMark l = false := by
  rcases hdr_shape h with ⟨t, ht⟩
  subst ht
  exact pfx_false_of_ne_head '+' '@' rfl _ _

theorem hdr_not_space {l : List Char} (h : pfx hdrMark l = true) :
    pfx spaceMark l = false := by
  rcases hdr_shape h with ⟨t, ht⟩
  subst ht
  exact pfx_false_of_ne_head ' ' '@' rfl _ _

theorem b2cStep_hdr (s : B2CState) (hdr : List Char) (c : Nat)
    (h1 : pfx hdrMark hdr = true) (h2 : reHunkHeader hdr = some c) :
    b2cStep s hdr = { s with cur := (c : Int), inHunk := true } := by
  have hdg := hdr_not_dg h1
  have hplus := hdr_not_plus h1
  have hspace := hdr_not_space h1
  simp only [b2cStep, hdg, h1, h2, hplus, hspace, Bool.false_eq_true, if_false,
    if_true]
  split
  · rfl
  · rfl

theorem b2cStep_plain_plus (s : B2CState) (l : List Char)
    (h1 : s.inHunk = true) (h2 : 0 < s.cur)
    (hh : pfx hdrMark l = false) (hd : pfx dgMark l = false)
    (hp : pfx plusMark l = true) :
    b2cStep s l =
      { s with entries := mapSet s.entries s.cur (l.drop 1), cur := s.cur + 1 } := by
  simp only [b2cStep, hh, hd, h1, h2, hp, Bool.false_eq_true, if_false, if_true,
    and_true, true_and]

theorem b2cStep_plain_space (s : B2CState) (l : List Char)
    (h1 : s.inHunk = true) (h2 : 0 < s.cur)
    (hh : pfx hdrMark l = false) (hd : pfx dgMark l = false)
    (hp : pfx plusMark l = false) (hsp : pfx spaceMark l = true) :
    b2cStep s l =
      { s with entries := mapSet s.entries s.cur (l.drop 1), cur := s.cur + 1 } := by
  simp only [b2cStep, hh, hd, h1, h2, hp, hsp, Bool.false_eq_true, if_false, if_true,
    and_true, true_and]

theorem b2cStep_plain_other (s : B2CState) (l : List Char)
    (hh : pfx hdrMark l = false) (hd : pfx dgMark l = false)
    (hp : pfx plusMark l = false) (hsp : pfx spaceMark l = false) :
    b2cStep s l = s := by
  simp only [b2cStep, hh, hd, hp, hsp, Bool.false_eq_true, if_false, if_true]
  split
  · rfl
  · rfl

theorem b2cFold_body :
    ∀ (body : List (List Char)) (s : B2CState),
      s.inHunk = true → 0 < s.cur → (∀ l ∈ body, plainLine l = true) →
      body.foldl b2cStep s =
        { currentFile := s.currentFile,
          cur := s.cur + (nonRemoved body).length,
          inHunk := true,
          entries := (hunkLineEntries s.cur body).foldl
            (fun m e => mapSet m e.1 e.2) s.entries } := by
  intro body
  induction body with
  | nil =>
    intro s h1 _ _
    cases s
    simp_all [nonRemoved, hunkLineEntries]
  | cons l body ih =>
    intro s h1 h2 hpl
    have hl : pfx hdrMark l = false ∧ pfx dgMark l = false := by
      have := hpl l (List.mem_cons_self l body)
      simp [plainLine] at this
      exact this
    have hpl' : ∀ x ∈ body, plainLine x = true :=
      fun x hx => hpl x (List.mem_cons_of_mem l hx)
    simp only [List.foldl_cons]
    by_cases hp : pfx plusMark l = true
    · rw [b2cStep_plain_plus s l h1 h2 hl.1 hl.2 hp]
      rw [ih _ (by simp [h1]) (by simp; omega) hpl']
      have hnr : nonRemoved (l :: body) = l :: nonRemoved body := by
        simp [nonRemoved, List.filter_cons, hp]
      have hhe : hunkLineEntries s.cur (l :: body) =
          (s.cur, l.drop 1) :: hunkLineEntries (s.cur + 1) body := by
        rw [hunkLineEntries, if_pos (by simp [hp])]
      rw [hnr, hhe]
      simp only [List.length_cons, List.foldl_cons]
      congr 1
      push_cast
      ring
    · by_cases hsp : pfx spaceMark l = true
      · rw [b2cStep_plain_space s l h1 h2 hl.1 hl.2 (by simpa using hp) hsp]
        rw [ih _ (by simp [h1]) (by simp; omega) hpl']
        have hnr : nonRemoved (l :: body) = l :: nonRemoved body := by
          simp [nonRemoved, List.filter_cons, hp, hsp]
        have hhe : hunkLineEntries s.cur (l :: body) =
            (s.cur, l.drop 1) :: hunkLineEntries (s.cur + 1) body := by
          rw [hunkLineEntries, if_pos (by simp [hsp])]
        rw [hnr, hhe]
        simp only [List.length_cons, List.foldl_cons]
        congr 1
        push_cast
        ring
      · rw [b2cStep_plain_other s l hl.1 hl.2 (by simpa using hp) (by simpa using hsp)]
        rw [ih _ h1 h2 hpl']
        have hnr : nonRemoved (l :: body) = nonRemoved body := by
          simp [nonRemoved, List.filter_cons, hp, hsp]
        have hhe : hunkLineEntries s.cur (l :: body) =
            hunkLineEntries s.cur body := by
          rw [hunkLineEntries, if_neg (by simp [hp, hsp])]
        rw [hnr, hhe]

/-- C1 — corrected.  For a hunk whose header parses to new-file start
`c ≥ 1`, the map builder assigns exactly the entries of the counting rule:
scanning the hunk's body in order from `c`, the k-th added-or-context line
(1-indexed) is set at line number `c + k - 1` with its marker stripped,
removed and unrecognised lines are assigned nothing and do not advance the
counter, and the counter ends at `c` plus the number of non-removed lines.
The proviso `c ≥ 1` is forced by the source's `currentHunkStartLine > 0`
guard: a hunk declaring new-file start 0 is assigned nothing (see the
counterexample). -/
theorem buildLineToCodeMap_hunk_numbering (pre body : List (List Char))
    (hdr : List Char) (c : Nat)
    (h1 : pfx hdrMark hdr = true) (h2 : reHunkHeader hdr = some c) (h3 : 0 < c)
    (h4 : ∀ l ∈ body, plainLine l = true) :
    ((pre ++ hdr :: body).foldl b2cStep b2cInit).cur =
      (c : Int) + (nonRemoved body).length ∧
    ((pre ++ hdr :: body).foldl b2cStep b2cInit).inHunk = true ∧
    ((pre ++ hdr :: body).foldl b2cStep b2cInit).entries =
      (hunkLineEntries (c : Int) body).foldl (fun m e => mapSet m e.1 e.2)
        ((pre.foldl b2cStep b2cInit).entries) ∧
    ((∀ l ∈ pre ++ hdr :: body, '\n' ∉ l) →
      buildLineToCodeMap (joinLines (pre ++ hdr :: body)) =
        (hunkLineEntries (c : Int) body).foldl (fun m e => mapSet m e.1 e.2)
          ((pre.foldl b2cStep b2cInit).entries)) := by
  have hfold : (pre ++ hdr :: body).foldl b2cStep b2cInit =
      { currentFile := (pre.foldl b2cStep b2cInit).currentFile,
        cur := (c : Int) + (nonRemoved body).length,
        inHunk := true,
        entries := (hunkLineEntries (c : Int) body).foldl
          (fun m e => mapSet m e.1 e.2) ((pre.foldl b2cStep b2cInit).entries) } := by
    rw [List.foldl_append, List.foldl_cons,
      b2cStep_hdr (pre.foldl b2cStep b2cInit) hdr c h1 h2]
    rw [b2cFold_body body _ rfl (by show (0 : Int) < (c : Int); exact_mod_cast h3) h4]
  refine ⟨by rw [hfold], by rw [hfold], by rw [hfold], ?_⟩
  intro hnl
  unfold buildLineToCodeMap
  rw [splitLines_joinLines _ (by simp) hnl, hfold]

/-- C1 — the claim as stated fails at a hunk declaring new-file start 0: its
single added line should be assigned line `0 + 1 - 1 = 0` under the counting
rule, but the builder's `currentHunkStartLine > 0` guard assigns nothing. -/
theorem buildLineToCodeMap_hunk_numbering_cex :
    buildLineToCodeMap cexDiff1 = [] ∧
    splitLines cexDiff1 = [cexHdr0, cexPlusX] ∧
    pfx hdrMark cexHdr0 = true ∧
    reHunkHeader cexHdr0 = some 0 ∧
    plainLine cexPlusX = true ∧
    hunkLineEntries 0 [cexPlusX] = [(0, ['x'])] := by
  decide

/-- C1 witness: the spec's example hunk `@@ -10,3 +10,4 @@` with a removed
line first, one context line and two added lines, processed after its file
header line, is assigned exactly lines 10, 11 and 12. -/
theorem buildLineToCodeMap_hunk_numbering_witness :
    ((exPre1 ++ exHdr10 :: exBody10).foldl b2cStep b2cInit).cur =
      (10 : Int) + (nonRemoved exBody10).length ∧
    ((exPre1 ++ exHdr10 :: exBody10).foldl b2cStep b2cInit).inHunk = true ∧
    ((exPre1 ++ exHdr10 :: exBody10).foldl b2cStep b2cInit).entries =
      (hunkLineEntries (10 : Int) exBody10).foldl (fun m e => mapSet m e.1 e.2)
        ((exPre1.foldl b2cStep b2cInit).entries) ∧
    ((∀ l ∈ exPre1 ++ exHdr10 :: exBody10, '\n' ∉ l) →
      buildLineToCodeMap (joinLines (exPre1 ++ exHdr10 :: exBody10)) =
        (hunkLineEntries (10 : Int) exBody10).foldl (fun m e => mapSet m e.1 e.2)
          ((exPre1.foldl b2cStep b2cInit).entries)) :=
  buildLineToCodeMap_hunk_numbering exPre1 exBody10 exHdr10 10
    (by decide) (by decide) (by decide) (by decide)

/-- C4 witness: with the default configuration and chunk size 2 on a
two-line segment, the window decomposition and round trip of
`splitLargeFileIntoSubChunks_spec` hold at a concrete input. -/
theorem splitLargeFileIntoSubChunks_spec_witness :
    (windows (actualSubChunkSize defaultAIConfig (some 2)) (splitLines cexSubChunkFile)).flatten =
      splitLines cexSubChunkFile ∧
    (∀ w ∈ windows (actualSubChunkSize defaultAIConfig (some 2)) (splitLines cexSubChunkFile),
      w ≠ [] ∧ w.length ≤ actualSubChunkSize defaultAIConfig (some 2)) ∧
    (∀ sc ∈ splitLargeFileIntoSubChunks defaultAIConfig cexSubChunkFile (some 2),
      allWS sc = false) ∧
    ((∀ w ∈ windows (actualSubChunkSize defaultAIConfig (some 2)) (splitLines cexSubChunkFile),
        w.all allWS = false) →
      chunksLines (splitLargeFileIntoSubChunks defaultAIConfig cexSubChunkFile (some 2)) =
        splitLines cexSubChunkFile) :=
  splitLargeFileIntoSubChunks_spec defaultAIConfig cexSubChunkFile (some 2) (by decide)

/-! ## Hunk extraction: `endLine` and the hunk lookup (C8) -/

theorem pushHunk_mem (hunks : List DiffHunk) (curHunk : List (List Char))
    (hdr : List Char) (start : Int)
    (hin : ∀ h ∈ hunks,
      h.endLine = h.startLine + lineCount h.content ∧
      pfx hdrMark h.header = true ∧
      ∀ c, reHunkHeader h.header = some c → h.startLine = (c : Int))
    (hnl : ∀ l ∈ curHunk, '\n' ∉ l)
    (hhdr : hdr ≠ [] → pfx hdrMark hdr = true ∧
      ∀ c, reHunkHeader hdr = some c → start = (c : Int)) :
    ∀ h ∈ pushHunk hunks curHunk hdr start,
      h.endLine = h.startLine + lineCount h.content ∧
      pfx hdrMark h.header = true ∧
      ∀ c, reHunkHeader h.header = some c → h.startLine = (c : Int) := by
  intro h hh
  unfold pushHunk at hh
  split at hh
  · rename_i hcond
    simp only [Bool.and_eq_true, Bool.not_eq_true', List.isEmpty_eq_false] at hcond
    rcases List.mem_append.mp hh with hm | hm
    · exact hin h hm
    · simp at hm
      subst hm
      have hcur : curHunk ≠ [] := by
        intro he
        rw [he] at hcond
        simp [List.isEmpty_iff] at hcond
      have hne : hdr ≠ [] := by
        intro he
        rw [he] at hcond
        simp [List.isEmpty_iff] at hcond
      refine ⟨?_, (hhdr hne).1, fun c hc => (hhdr hne).2 c hc⟩
      simp only [lineCount]
      rw [splitLines_joinLines curHunk hcur hnl]
  · exact hin h hh

theorem extractGo_mem :
    ∀ (ls : List (List Char)) (hunks : List DiffHunk)
      (curHunk : List (List Char)) (hdr : List Char) (start : Int)
      (inHunk : Bool) (i : Nat),
      (∀ h ∈ hunks,
        h.endLine = h.startLine + lineCount h.content ∧
        pfx hdrMark h.header = true ∧
        ∀ c, reHunkHeader h.header = some c → h.startLine = (c : Int)) →
      (∀ l ∈ curHunk, '\n' ∉ l) →
      (∀ l ∈ ls, '\n' ∉ l) →
      (hdr ≠ [] → pfx hdrMark hdr = true ∧
        ∀ c, reHunkHeader hdr = some c → start = (c : Int)) →
      ∀ h ∈ extractGo hunks curHunk hdr start inHunk i ls,
        h.endLine = h.startLine + lineCount h.content ∧
        pfx hdrMark h.header = true ∧
        ∀ c, reHunkHeader h.header = some c → h.startLine = (c : Int) := by
  intro ls
  induction ls with
  | nil =>
    intro hunks curHunk hdr start inHunk i hin hnl _ hhdr
    exact pushHunk_mem hunks curHunk hdr start hin hnl hhdr
  | cons line rest ih =>
    intro hunks curHunk hdr start inHunk i hin hnl hls hhdr
    have hlinenl : '\n' ∉ line := hls line (List.mem_cons_self line rest)
    have hrestnl : ∀ l ∈ rest, '\n' ∉ l :=
      fun l hl => hls l (List.mem_cons_of_mem line hl)
    rw [extractGo]
    by_cases hh : pfx hdrMark line = true
    · rw [if_pos hh]
      refine ih _ _ _ _ _ _ (pushHunk_mem hunks curHunk hdr start hin hnl hhdr)
        (by simp) hrestnl ?_
      intro _
      refine ⟨hh, ?_⟩
      intro c hc
      rw [hc]
    · rw [if_neg hh]
      by_cases hc2 : (inHunk && (pfx plusMark line || pfx dashMark line ||
          pfx spaceMark line)) = true
      · rw [if_pos hc2]
        refine ih _ _ _ _ _ _ hin ?_ hrestnl hhdr
        intro l hl
        rcases List.mem_append.mp hl with hm | hm
        · exact hnl l hm
        · simp at hm; subst hm; exact hlinenl
      · rw [if_neg hc2]
        by_cases hdg : pfx dgMark line = true
        · rw [if_pos hdg]
          exact pushHunk_mem _ curHunk hdr start
            (pushHunk_mem hunks curHunk hdr start hin hnl hhdr) hnl hhdr
        · rw [if_neg hdg]
          exact ih _ _ _ _ _ _ hin hnl hrestnl hhdr

theorem findDiffHunkForLine_find? :
    ∀ (hunks : List DiffHunk) (t : Int),
      findDiffHunkForLine hunks t =
        (hunks.find? (fun h => decide (h.startLine ≤ t) && decide (t ≤ h.endLine))).map
          (fun h => h.header ++ '\n' :: joinLines ((splitLines h.content).take 10)) := by
  intro hunks t
  induction hunks with
  | nil => rfl
  | cons h hs ih =>
    rw [findDiffHunkForLine, List.find?]
    by_cases hc : h.startLine ≤ t ∧ t ≤ h.endLine
    · rw [if_pos hc]
      have : (decide (h.startLine ≤ t) && decide (t ≤ h.endLine)) = true := by
        simp [hc.1, hc.2]
      rw [this]
      rfl
    · rw [if_neg hc]
      have : (decide (h.startLine ≤ t) && decide (t ≤ h.endLine)) = false := by
        rcases not_and_or.mp hc with hc1 | hc1 <;> simp [hc1]
      rw [this]
      exact ih

/-- C8 — corrected.  Every hunk returned by `extractDiffHunks` has a header
starting with the hunk marker, `startLine` equal to the header's parsed
new-file start when it parses, and `endLine` equal to `startLine` plus the
number of **all** its content lines — added, removed and context alike, not
only the non-removed ones; `findDiffHunkForLine` returns, for the first hunk
in order whose `[startLine, endLine]` range contains the target, its header
followed by the first ten content lines, and null when no hunk's range
contains the target. -/
theorem extractDiffHunks_spec (diffChunk : List Char) :
    (∀ h ∈ extractDiffHunks diffChunk,
      h.endLine = h.startLine + lineCount h.content ∧
      pfx hdrMark h.header = true ∧
      ∀ c, reHunkHeader h.header = some c → h.startLine = (c : Int)) ∧
    ∀ t : Int,
      findDiffHunkForLine (extractDiffHunks diffChunk) t =
        ((extractDiffHunks diffChunk).find?
          (fun h => decide (h.startLine ≤ t) && decide (t ≤ h.endLine))).map
          (fun h => h.header ++ '\n' :: joinLines ((splitLines h.content).take 10)) := by
  constructor
  · unfold extractDiffHunks
    exact extractGo_mem (splitLines diffChunk) [] [] [] 0 false 0
      (by simp) (by simp) (mem_splitLines_no_newline diffChunk)
      (by intro h; exact absurd rfl h)
  · intro t
    exact findDiffHunkForLine_find? (extractDiffHunks diffChunk) t

/-- C8 — the claim as stated fails: a hunk with one context and one removed
line has one non-removed content line, so the claim prescribes
`endLine = 1 + 1 = 2`, but the code counts all content lines and produces
`endLine = 3`. -/
theorem extractDiffHunks_spec_cex :
    (extractDiffHunks cexDiff8).map (fun h => (h.startLine, h.endLine)) = [(1, 3)] ∧
    (extractDiffHunks cexDiff8).map
      (fun h => (nonRemoved (splitLines h.content)).length) = [1] ∧
    (3 : Int) ≠ 1 + (1 : Int) := by
  decide

/-! ## Path extraction and unknown segments (C9) -/

theorem extractNameScan_cons_none (line : List Char) (rest : List (List Char)) :
    extractNameScan (line :: rest) = none ↔
      (pfx dgMark line = true → reDiffGit line = none) ∧
      (pfx pppMark line = true → rePlusPlusB line = none) ∧
      extractNameScan rest = none := by
  by_cases hdg : pfx dgMark line = true <;>
    by_cases hppp : pfx pppMark line = true <;>
    cases hre : reDiffGit line <;>
    cases hrp : rePlusPlusB line <;>
    simp [extractNameScan, hdg, hppp, hre, hrp]

theorem extractNameScan_cons_some (line : List Char) (rest : List (List Char))
    (n : List Char) :
    extractNameScan (line :: rest) = some n →
      (pfx dgMark line = true ∧ reDiffGit line = some n) ∨
      (pfx pppMark line = true ∧ rePlusPlusB line = some n) ∨
      extractNameScan rest = some n := by
  by_cases hdg : pfx dgMark line = true <;>
    by_cases hppp : pfx pppMark line = true <;>
    cases hre : reDiffGit line <;>
    cases hrp : rePlusPlusB line <;>
    simp [extractNameScan, hdg, hppp, hre, hrp]
  all_goals intro h
  all_goals simp [h]

theorem extractNameScan_none_iff :
    ∀ ls : List (List Char), extractNameScan ls = none ↔
      ∀ l ∈ ls, (pfx dgMark l = true → reDiffGit l = none) ∧
        (pfx pppMark l = true → rePlusPlusB l = none) := by
  intro ls
  induction ls with
  | nil => simp [extractNameScan]
  | cons line rest ih =>
    rw [extractNameScan_cons_none, ih, List.forall_mem_cons, and_assoc]

theorem extractNameScan_some :
    ∀ (ls : List (List Char)) (n : List Char), extractNameScan ls = some n →
      ∃ l ∈ ls, (pfx dgMark l = true ∧ reDiffGit l = some n) ∨
        (pfx pppMark l = true ∧ rePlusPlusB l = some n) := by
  intro ls
  induction ls with
  | nil => intro n h; simp [extractNameScan] at h
  | cons line rest ih =>
    intro n h
    rcases extractNameScan_cons_some line rest n h with hc | hc | hc
    · exact ⟨line, List.mem_cons_self line rest, Or.inl hc⟩
    · exact ⟨line, List.mem_cons_self line rest, Or.inr hc⟩
    · rcases ih n hc with ⟨l, hl, hcase⟩
      exact ⟨l, List.mem_cons_of_mem line hl, hcase⟩

theorem enum_mk_contents (sc : List (List Char)) (i acclen : Nat) :
    ((sc.enum.map fun p =>
      (⟨p.2, subChunkLabel i p.1 (lineCount p.2) p.2.length, acclen + p.1⟩ : Chunk)).map
        (·.content)) = sc := by
  rw [List.map_map]
  have heq : (Chunk.content ∘ fun p : Nat × List Char =>
      (⟨p.2, subChunkLabel i p.1 (lineCount p.2) p.2.length, acclen + p.1⟩ : Chunk)) =
      Prod.snd := funext fun p => rfl
  rw [heq]
  exact List.enum_map_snd sc

theorem collectFileChunks_contents (cfg : AIConfig) (total : Nat) :
    ∀ (files : List (List Char)) (i : Nat) (acc : List Chunk),
      (collectFileChunks cfg total i acc files).map (·.content) =
        acc.map (·.content) ++
        (files.filter (fun fd => !fileIsExcluded cfg fd)).flatMap
          (fileContents cfg) := by
  intro files
  induction files with
  | nil => intro i acc; simp [collectFileChunks]
  | cons fd rest ih =>
    intro i acc
    rw [collectFileChunks]
    by_cases hex : fileIsExcluded cfg fd = true
    · rw [if_pos hex, ih]
      simp [List.filter_cons, hex]
    · rw [if_neg hex]
      have hkeep : (fd :: rest).filter (fun fd => !fileIsExcluded cfg fd) =
          fd :: rest.filter (fun fd => !fileIsExcluded cfg fd) := by
        simp [List.filter_cons, hex]
      by_cases hsub : (shouldSubChunkFile cfg fd (lineCount fd) fd.length
          (extractFileNameFromDiff fd)).needsSubChunking = true
      · rw [if_pos hsub, ih, hkeep]
        rw [List.flatMap_cons]
        have hcont : fileContents cfg fd = splitLargeFileIntoSubChunks cfg fd
            (shouldSubChunkFile cfg fd (lineCount fd) fd.length
              (extractFileNameFromDiff fd)).chunkSize := by
          unfold fileContents
          rw [if_pos hsub]
        rw [hcont]
        rw [List.map_append, List.append_assoc]
        congr 1
        congr 1
        exact enum_mk_contents _ i acc.length
      · rw [if_neg hsub, ih, hkeep]
        rw [List.flatMap_cons]
        have hcont : fileContents cfg fd = [fd] := by
          unfold fileContents
          rw [if_neg hsub]
        rw [hcont]
        simp

/-- C9 — corrected.  The path of a file segment is null exactly when no line
yields a match: neither the two path tokens on a `diff --git` header line
nor the fallback the claim omits — a `+++ b/<path>` line, whose first match
also names the segment when the header parse fails.  A successful extraction
always comes from one of those two line forms.  A null-path segment is never
excluded, its classification is the name-independent default rule, and it is
still processed: it contributes its own content (whole or windowed) to the
collected chunks. -/
theorem extractFileName_null_behavior (cfg : AIConfig) (fd : List Char)
    (fileLines fileSize : Nat) :
    (extractFileNameFromDiff fd = none ↔
      ∀ l ∈ splitLines fd, (pfx dgMark l = true → reDiffGit l = none) ∧
        (pfx pppMark l = true → rePlusPlusB l = none)) ∧
    (∀ n, extractFileNameFromDiff fd = some n →
      ∃ l ∈ splitLines fd, (pfx dgMark l = true ∧ reDiffGit l = some n) ∨
        (pfx pppMark l = true ∧ rePlusPlusB l = some n)) ∧
    (extractFileNameFromDiff fd = none →
      fileIsExcluded cfg fd = false ∧
      shouldSubChunkFile cfg fd fileLines fileSize (extractFileNameFromDiff fd) =
        (if fileSize < 15000 then ⟨false, rUnder15, none⟩
         else defaultSubChunkDecision cfg fileLines fileSize) ∧
      ∀ (total i : Nat) (acc : List Chunk) (rest : List (List Char)),
        (collectFileChunks cfg total i acc (fd :: rest)).map (·.content) =
          acc.map (·.content) ++ fileContents cfg fd ++
          (rest.filter (fun x => !fileIsExcluded cfg x)).flatMap
            (fileContents cfg)) := by
  refine ⟨extractNameScan_none_iff (splitLines fd),
    fun n h => extractNameScan_some (splitLines fd) n h, ?_⟩
  intro hnone
  have hex : fileIsExcluded cfg fd = false := by
    unfold fileIsExcluded
    rw [hnone]
  refine ⟨hex, ?_, ?_⟩
  · rw [hnone]
    unfold shouldSubChunkFile
    rfl
  · intro total i acc rest
    rw [collectFileChunks_contents cfg total (fd :: rest) i acc]
    have hkeep : (fd :: rest).filter (fun x => !fileIsExcluded cfg x) =
        fd :: rest.filter (fun x => !fileIsExcluded cfg x) := by
      simp [List.filter_cons, hex]
    rw [hkeep, List.flatMap_cons, List.append_assoc]

/-- C9 — the claim as stated fails: a segment whose `diff --git` header line
does not parse (`diff --git x y` has no `a/.../b/...` tokens) still gets a
path from the `+++ b/app.ts` fallback line, instead of null. -/
theorem extractFileName_null_behavior_cex :
    splitLines cexSeg9 = [cexSeg9Hdr, cexSeg9Ppp] ∧
    pfx dgMark cexSeg9Hdr = true ∧
    reDiffGit cexSeg9Hdr = none ∧
    extractFileNameFromDiff cexSeg9 = some ['a', 'p', 'p', '.', 't', 's'] := by
  decide

/-! ## The Chunk Merger's batch structure (C5, C10) -/

theorem batchLines_append_one (b : List Chunk) (c : Chunk) :
    batchLines (b ++ [c]) = batchLines b + lineCount c.content := by
  simp [batchLines]

theorem batchSize_append_one (b : List Chunk) (c : Chunk) :
    batchSize (b ++ [c]) = batchSize b + c.content.length := by
  simp [batchSize]

theorem renderBatches_length (bs : List (List Chunk)) :
    (renderBatches bs).length = bs.length := by
  simp [renderBatches]

theorem renderBatches_append_one (bs : List (List Chunk)) (b : List Chunk) :
    renderBatches (bs ++ [b]) = renderBatches bs ++ [finalizeOne b bs.length] := by
  unfold renderBatches
  rw [List.enum_append]
  simp [List.enumFrom]

theorem finalizeMergedBatch_eq (b : List Chunk) (out : List Chunk) :
    finalizeMergedBatch b out = out ++ [finalizeOne b out.length] := by
  unfold finalizeMergedBatch finalizeOne
  match b with
  | [c] => rfl
  | [] => rfl
  | c₁ :: c₂ :: t => rfl

theorem mergeFlush_rel (cfg : AIConfig) (inp : List Chunk) (s : MergeState)
    (h : MRel cfg inp s) (hne : s.batch ≠ []) :
    MRel cfg inp (mergeFlush s) ∧ (mergeFlush s).batch = [] := by
  rcases h with ⟨bs, h1, h2, h3, h4, h5, h6, h7⟩
  refine ⟨⟨bs ++ [s.batch], ?_, ?_, ?_, ?_, rfl, rfl, by simp [mergeFlush]⟩, rfl⟩
  · simp only [mergeFlush]
    rw [List.flatten_append]
    simpa using h1
  · intro b hb
    rcases List.mem_append.mp hb with hm | hm
    · exact h2 b hm
    · simp at hm; subst hm; exact hne
  · simp only [mergeFlush]
    rw [finalizeMergedBatch_eq, h3, renderBatches_append_one, renderBatches_length]
  · intro b hb
    rcases List.mem_append.mp hb with hm | hm
    · exact h4 b hm
    · simp at hm
      subst hm
      intro hlen
      rcases h7 hlen with ⟨ha, hb_⟩
      rw [h5] at ha
      rw [h6] at hb_
      exact ⟨ha, hb_⟩

theorem mergeStep_rel (cfg : AIConfig) (inp : List Chunk) (s : MergeState)
    (c : Chunk) (h : MRel cfg inp s) :
    MRel cfg (inp ++ [c]) (mergeStep cfg s c) := by
  unfold mergeStep
  dsimp only
  generalize hs1 :
    (if ((decide (s.bLines + lineCount c.content > cfg.maxChunkSize) ||
      decide (s.bSize + c.content.length > cfg.maxChunkSize * 1000)) &&
      !s.batch.isEmpty) = true then mergeFlush s else s) = s1
  have hs1facts : MRel cfg inp s1 ∧
      (s1.batch = [] ∨ (s1 = s ∧
        ((decide (s.bLines + lineCount c.content > cfg.maxChunkSize) ||
          decide (s.bSize + c.content.length > cfg.maxChunkSize * 1000)) = false ∨
          s.batch = []))) := by
    rw [← hs1]
    by_cases hc : ((decide (s.bLines + lineCount c.content > cfg.maxChunkSize) ||
        decide (s.bSize + c.content.length > cfg.maxChunkSize * 1000)) &&
        !s.batch.isEmpty) = true
    · rw [if_pos hc]
      have hc2 := hc
      simp only [Bool.and_eq_true] at hc2
      have hbne : s.batch ≠ [] := by
        simpa [List.isEmpty_iff] using hc2.2
      exact ⟨(mergeFlush_rel cfg inp s h hbne).1,
        Or.inl (mergeFlush_rel cfg inp s h hbne).2⟩
    · rw [if_neg hc]
      refine ⟨h, Or.inr ⟨rfl, ?_⟩⟩
      simp only [Bool.and_eq_true, not_and] at hc
      by_cases hA : (decide (s.bLines + lineCount c.content > cfg.maxChunkSize) ||
          decide (s.bSize + c.content.length > cfg.maxChunkSize * 1000)) = true
      · right
        have := hc hA
        simpa [List.isEmpty_iff] using this
      · left
        exact (Bool.not_eq_true _) ▸ hA
  rcases hs1facts with ⟨hs1rel, hs1cases⟩
  by_cases htb : (decide (lineCount c.content > cfg.optimalChunkSize) ||
      decide (c.content.length > cfg.optimalChunkSize * 100)) = true
  · rw [if_pos htb]
    generalize hs2 : (if (!s1.batch.isEmpty) = true then mergeFlush s1 else s1) = s2
    have hs2facts : MRel cfg inp s2 ∧ s2.batch = [] := by
      rw [← hs2]
      by_cases hne : s1.batch = []
      · rw [if_neg (by simp [hne])]
        exact ⟨hs1rel, hne⟩
      · rw [if_pos (by simp [List.isEmpty_iff, hne])]
        exact mergeFlush_rel cfg inp s1 hs1rel hne
    rcases hs2facts.1 with ⟨bs, h1, h2, h3, h4, h5, h6, _⟩
    have hflat : bs.flatten = inp := by
      rw [hs2facts.2] at h1
      simpa using h1
    refine ⟨bs ++ [[c]], ?_, ?_, ?_, ?_, ?_, ?_, ?_⟩
    · rw [List.flatten_append]
      simp [hflat, hs2facts.2]
    · intro b hb
      rcases List.mem_append.mp hb with hm | hm
      · exact h2 b hm
      · simp at hm; subst hm; simp
    · show s2.out ++ [c] = _
      rw [h3, renderBatches_append_one]
      simp [finalizeOne]
    · intro b hb
      rcases List.mem_append.mp hb with hm | hm
      · exact h4 b hm
      · simp at hm; subst hm; intro hlen; simp at hlen
    · simp [hs2facts.2, h5]
    · simp [hs2facts.2, h6]
    · rw [hs2facts.2]
      intro hlen
      simp at hlen
  · rw [if_neg htb]
    rcases hs1rel with ⟨bs, h1, h2, h3, h4, h5, h6, h7⟩
    have hbound : 2 ≤ s1.batch.length + 1 →
        batchLines s1.batch + lineCount c.content ≤ cfg.maxChunkSize ∧
        batchSize s1.batch + c.content.length ≤ cfg.maxChunkSize * 1000 := by
      intro hlen
      rcases hs1cases with hb0 | ⟨hseq, hcase⟩
      · rw [hb0] at hlen
        simp at hlen
      · rcases hcase with hwef | hb0
        · subst hseq
          simp only [Bool.or_eq_false_iff, decide_eq_false_iff_not] at hwef
          obtain ⟨hf1, hf2⟩ := hwef
          constructor
          · rw [← h5]
            omega
          · rw [← h6]
            omega
        · subst hseq
          rw [hb0] at hlen
          simp at hlen
    have hrel2 : MRel cfg (inp ++ [c])
        { out := s1.out, batch := s1.batch ++ [c], bSize := s1.bSize + c.content.length,
          bLines := s1.bLines + lineCount c.content } := by
      refine ⟨bs, ?_, h2, h3, h4, ?_, ?_, ?_⟩
      · show bs.flatten ++ (s1.batch ++ [c]) = inp ++ [c]
        rw [← List.append_assoc, h1]
      · show s1.bLines + lineCount c.content = batchLines (s1.batch ++ [c])
        rw [h5, batchLines_append_one]
      · show s1.bSize + c.content.length = batchSize (s1.batch ++ [c])
        rw [h6, batchSize_append_one]
      · show 2 ≤ (s1.batch ++ [c]).length → _
        intro hlen
        simp at hlen
        rw [h5, h6]
        exact hbound (by omega)
    by_cases hfl : s1.bLines + lineCount c.content ≥ cfg.optimalChunkSize
    · rw [if_pos hfl]
      exact (mergeFlush_rel cfg (inp ++ [c]) _ hrel2 (by simp)).1
    · rw [if_neg hfl]
      exact hrel2

theorem mergeFold_rel (cfg : AIConfig) :
    ∀ (chunks : List Chunk) (s : MergeState) (done : List Chunk),
      MRel cfg done s →
      MRel cfg (done ++ chunks) (chunks.foldl (mergeStep cfg) s) := by
  intro chunks
  induction chunks with
  | nil => intro s done h; simpa using h
  | cons c cs ih =>
    intro s done h
    rw [List.foldl_cons]
    have := ih (mergeStep cfg s c) (done ++ [c]) (mergeStep_rel cfg done s c h)
    simpa using this

theorem mergeSmallChunks_eq_of_big (cfg : AIConfig) (chunks : List Chunk)
    (h : ¬chunks.length ≤ 1) :
    mergeSmallChunks cfg chunks =
      (if (!(chunks.foldl (mergeStep cfg) ⟨[], [], 0, 0⟩).batch.isEmpty) = true
       then mergeFlush (chunks.foldl (mergeStep cfg) ⟨[], [], 0, 0⟩)
       else chunks.foldl (mergeStep cfg) ⟨[], [], 0, 0⟩).out := by
  unfold mergeSmallChunks
  rw [if_neg h]

theorem mergeSmallChunks_batches (cfg : AIConfig) (chunks : List Chunk) :
    ∃ bs : List (List Chunk),
      bs.flatten = chunks ∧
      (∀ b ∈ bs, b ≠ []) ∧
      mergeSmallChunks cfg chunks = renderBatches bs ∧
      ∀ b ∈ bs, 2 ≤ b.length →
        batchLines b ≤ cfg.maxChunkSize ∧ batchSize b ≤ cfg.maxChunkSize * 1000 := by
  by_cases hlen : chunks.length ≤ 1
  · match chunks, hlen with
    | [], _ =>
      exact ⟨[], by simp, by simp, by simp [mergeSmallChunks, renderBatches], by simp⟩
    | [c], _ =>
      refine ⟨[[c]], by simp, by simp, ?_, by simp [batchLines, batchSize]⟩
      have h1 : mergeSmallChunks cfg [c] = [c] := by
        unfold mergeSmallChunks
        rw [if_pos (by simp)]
      rw [h1]
      rfl
  · have hinit : MRel cfg [] ⟨[], [], 0, 0⟩ :=
      ⟨[], by simp, by simp, by simp [renderBatches], by simp, rfl, rfl, by simp⟩
    have hfold := mergeFold_rel cfg chunks ⟨[], [], 0, 0⟩ [] hinit
    simp only [List.nil_append] at hfold
    rw [mergeSmallChunks_eq_of_big cfg chunks hlen]
    set fin := chunks.foldl (mergeStep cfg) (⟨[], [], 0, 0⟩ : MergeState) with hfin
    by_cases hbne : fin.batch = []
    · rcases hfold with ⟨bs, h1, h2, h3, h4, _, _, _⟩
      rw [hbne] at h1
      simp at h1
      refine ⟨bs, h1, h2, ?_, h4⟩
      rw [if_neg (by simp [hbne])]
      exact h3
    · have hflush := mergeFlush_rel cfg chunks fin hfold hbne
      rcases hflush.1 with ⟨bs, h1, h2, h3, h4, _, _, _⟩
      rw [hflush.2] at h1
      simp at h1
      refine ⟨bs, h1, h2, ?_, h4⟩
      rw [if_pos (by simp [List.isEmpty_iff, hbne])]
      exact h3

/-- C10 — confirmed.  The merger's output renders a decomposition of its
input into nonempty consecutive batches, in order: each emitted chunk is
either one input chunk unchanged (a singleton batch) or the blank-line join
of the contents of two or more consecutive input chunks, and reading the
emitted chunks in output order covers every input chunk exactly once in the
original order. -/
theorem mergeSmallChunks_structure (cfg : AIConfig) (chunks : List Chunk) :
    ∃ bs : List (List Chunk),
      bs.flatten = chunks ∧
      (∀ b ∈ bs, b ≠ []) ∧
      mergeSmallChunks cfg chunks = renderBatches bs := by
  rcases mergeSmallChunks_batches cfg chunks with ⟨bs, h1, h2, h3, _⟩
  exact ⟨bs, h1, h2, h3⟩

/-- C5 — corrected.  Merging the empty list returns the empty list and a
single chunk is always returned unchanged (whether or not it is within
limits).  For every flushed multi-element batch, the sums the merger tracks
— the constituents' line counts and character counts — never exceed the
hard maximum `maxChunkSize` (respectively `maxChunkSize * 1000`); but the
emitted merged content itself adds one blank separator line per extra
element, so its own line count can exceed `maxChunkSize` (see the
counterexample). -/
theorem mergeSmallChunks_sizes (cfg : AIConfig) :
    mergeSmallChunks cfg [] = [] ∧
    (∀ c : Chunk, mergeSmallChunks cfg [c] = [c]) ∧
    ∀ chunks : List Chunk, ∃ bs : List (List Chunk),
      bs.flatten = chunks ∧
      mergeSmallChunks cfg chunks = renderBatches bs ∧
      ∀ b ∈ bs, 2 ≤ b.length →
        batchLines b ≤ cfg.maxChunkSize ∧ batchSize b ≤ cfg.maxChunkSize * 1000 := by
  refine ⟨rfl, ?_, ?_⟩
  · intro c
    unfold mergeSmallChunks
    rw [if_pos (by simp)]
  · intro chunks
    rcases mergeSmallChunks_batches cfg chunks with ⟨bs, h1, _, h3, h4⟩
    exact ⟨bs, h1, h3, h4⟩

set_option maxRecDepth 8000 in
/-- C5 — the claim as stated fails on the emitted content: two 100-line
chunks are merged into one batch (the tracked sum 200 is within the default
hard maximum 200), but the emitted chunk's content gains a blank separator
line and has 201 lines, exceeding `maxChunkSize`. -/
theorem mergeSmallChunks_sizes_cex :
    (mergeSmallChunks defaultAIConfig [cexChunkA, cexChunkB]).map
      (fun c => c.content) = [joinSep nnSep [cexC100, cexC100]] ∧
    lineCount (joinSep nnSep [cexC100, cexC100]) = 201 ∧
    defaultAIConfig.maxChunkSize = 200 := by
  decide

/-! ## Exclusion completeness (C7) -/

theorem planChunks_eq (cfg : AIConfig) (diff : List Char) :
    planChunks cfg diff =
      (if (cfg.chunkMergeEnabled && decide
          ((collectFileChunks cfg (splitDiffByFiles diff).length 0 []
            (splitDiffByFiles diff)).length > 1)) = true then
        mergeSmallChunks cfg (collectFileChunks cfg (splitDiffByFiles diff).length 0 []
          (splitDiffByFiles diff))
      else collectFileChunks cfg (splitDiffByFiles diff).length 0 []
        (splitDiffByFiles diff)) := rfl

theorem renderBatches_content (bs : List (List Chunk)) (cc : List Char)
    (h : cc ∈ (renderBatches bs).map (·.content)) :
    ∃ b ∈ bs, cc = joinSep nnSep (b.map (·.content)) := by
  rcases List.mem_map.mp h with ⟨ch, hch, hcc⟩
  rcases List.mem_map.mp hch with ⟨p, hp, hfin⟩
  have hb : p.2 ∈ bs := by
    have := List.mem_map_of_mem Prod.snd hp
    rwa [List.enum_map_snd] at this
  refine ⟨p.2, hb, ?_⟩
  subst hcc
  rw [← hfin]
  match p with
  | (i, [c]) => rfl
  | (i, []) => rfl
  | (i, c₁ :: c₂ :: t) => rfl

theorem chunkContents_from_files (cfg : AIConfig) (diff : List Char)
    (p : List Char)
    (hp : p ∈ (collectFileChunks cfg (splitDiffByFiles diff).length 0 []
      (splitDiffByFiles diff)).map (·.content)) :
    ∃ fd ∈ splitDiffByFiles diff,
      fileIsExcluded cfg fd = false ∧ p ∈ fileContents cfg fd := by
  rw [collectFileChunks_contents] at hp
  simp only [List.map_nil, List.nil_append] at hp
  rcases List.mem_flatMap.mp hp with ⟨fd, hfd, hpc⟩
  have := List.mem_filter.mp hfd
  refine ⟨fd, this.1, ?_, hpc⟩
  simpa using this.2

/-- C7 — corrected.  On the chunked path, every text sent to the model is a
blank-line join of parts, each of which is the segment (or a window of the
segment) of a file that the exclusion filter kept; and every file whose
path ends in `package-lock.json`, ends in `.min.js`, or starts with `dist/`
is rejected by the exclusion filter, so such a file contributes nothing to
any chunk sent.  The proviso is the chunked path: a diff small enough to be
sent whole bypasses the exclusion filter entirely (see the
counterexample). -/
theorem exclusion_completeness (cfg : AIConfig) (diff : List Char)
    (hbig : takesChunkedPath cfg diff = true) :
    (∀ cc ∈ analyzeDiffPlan cfg diff, ∃ parts : List (List Char), parts ≠ [] ∧
      cc = joinSep nnSep parts ∧
      ∀ p ∈ parts, ∃ fd ∈ splitDiffByFiles diff,
        fileIsExcluded cfg fd = false ∧ p ∈ fileContents cfg fd) ∧
    (∀ n : List Char,
      (sfx pkgLockSfx n || sfx minJsSfx n || pfx distPfxMark n) = true →
      shouldExcludeFile cfg n = true) := by
  constructor
  · intro cc hcc
    unfold analyzeDiffPlan at hcc
    rw [if_pos hbig, planChunks_eq] at hcc
    split at hcc
    · rcases mergeSmallChunks_structure cfg _ with ⟨bs, hflat, hbne, hout⟩
      rw [hout] at hcc
      rcases renderBatches_content bs cc hcc with ⟨b, hb, hcb⟩
      refine ⟨b.map (·.content), ?_, hcb, ?_⟩
      · simp only [ne_eq, List.map_eq_nil_iff]
        exact hbne b hb
      · intro p hp
        rcases List.mem_map.mp hp with ⟨ch, hch, hpc⟩
        have hmem : ch ∈ (collectFileChunks cfg (splitDiffByFiles diff).length 0 []
            (splitDiffByFiles diff)) := by
          rw [← hflat]
          exact List.mem_flatten.mpr ⟨b, hb, hch⟩
        subst hpc
        exact chunkContents_from_files cfg diff ch.content
          (List.mem_map_of_mem (·.content) hmem)
    · refine ⟨[cc], by simp, rfl, ?_⟩
      intro q hq
      simp at hq
      rw [hq]
      exact chunkContents_from_files cfg diff cc hcc
  · intro n hn
    have hsm : smartExcluded n = true := by
      simp only [Bool.or_eq_true] at hn
      rcases hn with (h | h) | h
      · simp [smartExcluded, h]
      · simp [smartExcluded, h]
      · simp [smartExcluded, h]
    unfold shouldExcludeFile
    simp [hsm]

/-- C7 — the claim as stated fails: a diff touching only
`package-lock.json` but small enough to stay under the chunking thresholds
is sent to the model whole, exclusion filter bypassed. -/
theorem exclusion_completeness_cex :
    takesChunkedPath defaultAIConfig cexDiff7 = false ∧
    analyzeDiffPlan defaultAIConfig cexDiff7 = [cexDiff7] ∧
    extractFileNameFromDiff cexDiff7 = some pkgLockName ∧
    shouldExcludeFile defaultAIConfig pkgLockName = true := by
  decide

/-- C7 witness: with tiny chunking thresholds the same diff takes the
chunked path, and `exclusion_completeness` applies to it. -/
theorem exclusion_completeness_witness :
    (∀ cc ∈ analyzeDiffPlan witCfg7 cexDiff7, ∃ parts : List (List Char), parts ≠ [] ∧
      cc = joinSep nnSep parts ∧
      ∀ p ∈ parts, ∃ fd ∈ splitDiffByFiles cexDiff7,
        fileIsExcluded witCfg7 fd = false ∧ p ∈ fileContents witCfg7 fd) ∧
    (∀ n : List Char,
      (sfx pkgLockSfx n || sfx minJsSfx n || pfx distPfxMark n) = true →
      shouldExcludeFile witCfg7 n = true) :=
  exclusion_completeness witCfg7 cexDiff7 (by decide)

/-! ## Per-chunk failure isolation in the Batch Orchestrator (C6) -/

theorem map_enumFrom_g {α β : Type} :
    ∀ (l : List α) (k : Nat) (g : Nat → α → β),
      (l.enumFrom k).map (fun p => g p.1 p.2) =
        l.enum.map (fun p => g (k + p.1) p.2) := by
  intro l
  induction l with
  | nil => intro k g; rfl
  | cons a l ih =>
    intro k g
    have h1 := ih (k + 1) g
    have h2 := ih 1 (fun j c => g (k + j) c)
    simp only [List.enumFrom, List.enum, List.map_cons] at h1 h2 ⊢
    rw [h1, h2, Nat.add_zero]
    congr 1
    apply List.map_congr_left
    intro p _
    have h3 : k + 1 + p.1 = k + (1 + p.1) := by omega
    rw [h3]

theorem map_enumFrom_take_drop {α β : Type} :
    ∀ (n : Nat) (l : List α) (k : Nat) (g : Nat → α → β),
      (l.enumFrom k).map (fun p => g p.1 p.2) =
        ((l.take n).enumFrom k).map (fun p => g p.1 p.2) ++
        ((l.drop n).enumFrom (k + n)).map (fun p => g p.1 p.2) := by
  intro n
  induction n with
  | zero => intro l k g; simp
  | succ n ih =>
    intro l k g
    cases l with
    | nil => simp
    | cons a l =>
      simp only [List.take_succ_cons, List.drop_succ_cons, List.enumFrom,
        List.map_cons, List.cons_append]
      rw [ih l (k + 1) g]
      have : k + 1 + n = k + (n + 1) := by omega
      rw [this]

theorem orchestrateGo_eq (out : Nat → ChunkOutcome) (bsz : Nat) (hbsz : 0 < bsz) :
    ∀ (fuel i : Nat) (cs : List Chunk), cs.length ≤ fuel →
      orchestrateGo out bsz fuel i cs =
        ((cs.enumFrom i).map
          (fun p => chunkContribution (out p.1) p.2.content)).flatten := by
  intro fuel
  induction fuel with
  | zero =>
    intro i cs hl
    rw [show cs = [] from List.eq_nil_of_length_eq_zero (Nat.le_zero.mp hl)]
    rfl
  | succ fuel ih =>
    intro i cs hl
    cases cs with
    | nil => rfl
    | cons c cs =>
      rw [orchestrateGo, if_neg (by omega)]
      dsimp only
      rw [ih (i + bsz) ((c :: cs).drop bsz)
        (by simp [List.length_drop] at hl ⊢; omega)]
      rw [map_enumFrom_take_drop bsz (c :: cs) i
        (fun j ch => chunkContribution (out j) ch.content)]
      rw [List.flatten_append]
      congr 1
      rw [map_enumFrom_g ((c :: cs).take bsz) i
        (fun j ch => chunkContribution (out j) ch.content)]

/-- C6 — confirmed.  The orchestrator's result is exactly the concatenation,
in input order, of each chunk's own contribution, which depends only on that
chunk's content and its own analysis outcome; a chunk whose analysis throws
(either caught by the orchestrator's try/catch or inside the per-chunk
analyzer) or whose top-level response is not an array contributes the empty
feedback list, and every other chunk's contribution is unchanged — the run
always produces the remaining chunks' feedback and is never aborted. -/
theorem orchestrator_isolation (out : Nat → ChunkOutcome) (batchSz : Nat)
    (hb : 0 < batchSz) (chunks : List Chunk) :
    orchestrate out batchSz 0 chunks =
      (chunks.enum.map
        (fun p => chunkContribution (out p.1) p.2.content)).flatten ∧
    (∀ content : List Char,
      chunkContribution ChunkOutcome.outerThrow content = []) ∧
    (∀ content : List Char,
      chunkContribution (ChunkOutcome.resp ChunkResponse.errorResp) content = []) ∧
    (∀ content : List Char,
      chunkContribution (ChunkOutcome.resp ChunkResponse.nonArray) content = []) := by
  refine ⟨?_, fun _ => rfl, fun _ => rfl, fun _ => rfl⟩
  unfold orchestrate
  rw [orchestrateGo_eq out batchSz hb chunks.length 0 chunks (Nat.le_refl _)]
  rfl

/-- C6 witness: the orchestrator applied to one concrete chunk whose
analysis throws, with the default batch size 2. -/
theorem orchestrator_isolation_witness :
    orchestrate (fun _ => ChunkOutcome.outerThrow) 2 0 [cexChunkA] =
      (([cexChunkA].enum.map
        (fun p => chunkContribution ((fun _ => ChunkOutcome.outerThrow) p.1)
          p.2.content)).flatten) ∧
    (∀ content : List Char,
      chunkContribution ChunkOutcome.outerThrow content = []) ∧
    (∀ content : List Char,
      chunkContribution (ChunkOutcome.resp ChunkResponse.errorResp) content = []) ∧
    (∀ content : List Char,
      chunkContribution (ChunkOutcome.resp ChunkResponse.nonArray) content = []) :=
  orchestrator_isolation (fun _ => ChunkOutcome.outerThrow) 2 (by decide) [cexChunkA]

theorem contains_snoc {α : Type} [BEq α] [LawfulBEq α] [DecidableEq α]
    (l : List α) (a b : α) : (l ++ [a]).contains b = (l.contains b || b == a) := by
  simp [List.contains, List.elem_eq_mem]
  rw [Bool.beq_eq_decide_eq]

theorem find_none_of_any_false {β : Type} (m : List (List Char × β)) (k : List Char)
    (h : m.any (fun e => e.1 == k) = false) : m.find? (fun e => e.1 == k) = none := by
  rw [List.find?_eq_none]
  intro x hx hc
  have hm : m.any (fun e => e.1 == k) = true := List.any_eq_true.mpr ⟨x, hx, hc⟩
  rw [h] at hm; exact Bool.false_ne_true hm

theorem alGet_none_of_any_false {β : Type} (m : List (List Char × β)) (k : List Char)
    (h : m.any (fun e => e.1 == k) = false) : alGet m k = none := by
  unfold alGet; rw [find_none_of_any_false m k h]; rfl

theorem find_map_set_self {β : Type} (m : List (List Char × β)) (k : List Char) (v : β)
    (h : m.any (fun e => e.1 == k) = true) :
    (m.map (fun e => if e.1 == k then (k, v) else e)).find? (fun e => e.1 == k) =
      some (k, v) := by
  induction m with
  | nil => simp at h
  | cons e m ih =>
    by_cases he : (e.1 == k) = true
    · simp [List.find?, he]
    · simp only [List.any_cons, Bool.or_eq_true] at h
      have h2 : m.any (fun e => e.1 == k) = true := by
        rcases h with h | h
        · exact absurd h he
        · exact h
      have he2 : (e.1 == k) = false := by simpa using he
      simp only [List.map_cons, List.find?, he2, Bool.false_eq_true, if_false]
      exact ih h2

theorem find_map_set_other {β : Type} (m : List (List Char × β)) (k g : List Char) (v : β)
    (hne : g ≠ k) :
    (m.map (fun e => if e.1 == k then (k, v) else e)).find? (fun e => e.1 == g) =
      m.find? (fun e => e.1 == g) := by
  induction m with
  | nil => rfl
  | cons e m ih =>
    by_cases he : (e.1 == k) = true
    · have he' : e.1 = k := by simpa using he
      have hkg : (k == g) = false := beq_eq_false_iff_ne.mpr (Ne.symm hne)
      have heg : (e.1 == g) = false := by rw [he']; exact hkg
      simp only [List.map_cons, List.find?, he, if_true, hkg, heg]
      exact ih
    · have he2 : (e.1 == k) = false := by simpa using he
      simp only [List.map_cons, List.find?, he2, Bool.false_eq_true, if_false]
      by_cases hg : (e.1 == g) = true
      · simp only [hg]
      · have hg2 : (e.1 == g) = false := by simpa using hg
        simp only [hg2]
        exact ih

theorem alGet_alSet_self {β : Type} (m : List (List Char × β)) (k : List Char) (v : β) :
    alGet (alSet m k v) k = some v := by
  unfold alSet
  by_cases h : m.any (fun e => e.1 == k) = true
  · rw [if_pos h]
    unfold alGet
    rw [find_map_set_self m k v h]; rfl
  · rw [if_neg h]
    unfold alGet
    rw [List.find?_append, find_none_of_any_false m k (Bool.not_eq_true _ ▸ h)]
    simp [List.find?]

theorem alGet_alSet_other {β : Type} (m : List (List Char × β)) (k g : List Char) (v : β)
    (hne : g ≠ k) : alGet (alSet m k v) g = alGet m g := by
  unfold alSet
  by_cases h : m.any (fun e => e.1 == k) = true
  · rw [if_pos h]
    unfold alGet
    rw [find_map_set_other m k g v hne]
  · rw [if_neg h]
    unfold alGet
    rw [List.find?_append]
    have hkg : ((k, v).1 == g) = false := beq_eq_false_iff_ne.mpr (Ne.symm hne)
    have : ([(k, v)].find? (fun e => e.1 == g)) = none := by
      simp only [List.find?, hkg]
    rw [this]
    cases m.find? (fun e => e.1 == g) <;> rfl

theorem alGet_snoc_other {β : Type} (m : List (List Char × β)) (k g : List Char) (v : β)
    (hne : g ≠ k) : alGet (m ++ [(k, v)]) g = alGet m g := by
  unfold alGet
  rw [List.find?_append]
  have hkg : ((k, v).1 == g) = false := beq_eq_false_iff_ne.mpr (Ne.symm hne)
  have : ([(k, v)].find? (fun e => e.1 == g)) = none := by
    simp only [List.find?, hkg]
  rw [this]
  cases m.find? (fun e => e.1 == g) <;> rfl

theorem alGet_snoc_self {β : Type} (m : List (List Char × β)) (k : List Char) (v : β)
    (h : alGet m k = none) : alGet (m ++ [(k, v)]) k = some v := by
  unfold alGet at h ⊢
  rw [List.find?_append]
  cases hm : m.find? (fun e => e.1 == k) with
  | some e => rw [hm] at h; simp at h
  | none => simp [List.find?]

theorem setAddInt_contains (s : List Int) (n m : Int) :
    (setAddInt s n).contains m = (s.contains m || m == n) := by
  unfold setAddInt
  by_cases h : s.contains n = true
  · rw [if_pos h]
    by_cases hm : (m == n) = true
    · have hm' : m = n := by simpa using hm
      rw [hm', h]
      simp
    · rw [Bool.not_eq_true] at hm
      rw [hm, Bool.or_false]
  · rw [if_neg h]
    exact contains_snoc s n m

theorem setAddStr_contains (s : List (List Char)) (f g : List Char) :
    (setAddStr s f).contains g = (s.contains g || g == f) := by
  unfold setAddStr
  by_cases h : s.contains f = true
  · rw [if_pos h]
    by_cases hm : (g == f) = true
    · have hm' : g = f := by simpa using hm
      rw [hm', h]
      simp
    · rw [Bool.not_eq_true] at hm
      rw [hm, Bool.or_false]
  · rw [if_neg h]
    exact contains_snoc s f g

theorem lastBSplit_ne_nil (rest f : List Char) (h : lastBSplit rest = some f) : f ≠ [] := by
  unfold lastBSplit at h
  dsimp only at h
  cases hl : (((List.range rest.length).filter fun k =>
      decide (1 ≤ k) && pfx bSlashMark (rest.drop k) && decide (k + 3 < rest.length))).getLast? with
  | none => rw [hl] at h; simp at h
  | some k =>
    rw [hl] at h
    have h2 : List.take k rest = f := by simpa using h
    have hk : k ∈ (List.range rest.length).filter fun k =>
        decide (1 ≤ k) && pfx bSlashMark (rest.drop k) && decide (k + 3 < rest.length) :=
      List.mem_of_mem_getLast? (by simp [hl])
    rw [List.mem_filter] at hk
    have hk1 : 1 ≤ k := by
      have := hk.2
      simp only [Bool.and_eq_true, decide_eq_true_eq] at this
      exact this.1.1
    have hk2 : k < rest.length := List.mem_range.mp hk.1
    have : f.length = k := by
      rw [← h2]; simp [List.length_take]; omega
    intro hf
    rw [hf] at this
    simp at this
    omega

theorem dgAt_ne_nil (l f : List Char) (h : dgAt l = some f) : f ≠ [] := by
  unfold dgAt at h
  cases hr : afterPfx dgAMark l with
  | none => rw [hr] at h; simp at h
  | some rest =>
    rw [hr] at h
    simp only [Option.bind_eq_bind, Option.some_bind] at h
    exact lastBSplit_ne_nil rest f h

theorem reDiffGit_ne_nil (l f : List Char) (h : reDiffGit l = some f) : f ≠ [] := by
  induction l with
  | nil => simp [reDiffGit] at h
  | cons c cs ih =>
    rw [reDiffGit] at h
    cases hd : dgAt (c :: cs) with
    | some g =>
      rw [hd] at h
      injection h with h
      rw [← h]
      exact dgAt_ne_nil _ _ hd
    | none =>
      rw [hd] at h
      exact ih h


theorem rescanStep_dg (r : RescanState) (line : List Char) (hdg : pfx dgMark line = true) :
    rescanStep r line = { r with path := reDiffGit line, inHunk := false } := by
  simp only [rescanStep, hdg, if_true]

theorem vmStep_dg (s : VMState) (line : List Char) (hdg : pfx dgMark line = true) :
    vmStep s line =
      (let s1 := if s.currentFile ≠ [] ∧ s.currentHunkLines ≠ [] then vmFlush s else s
       let s2 := match reDiffGit line with
         | some f => { s1 with currentFile := f, vm := { s1.vm with files := setAddStr s1.vm.files f, fileLines := if (alGet s1.vm.fileLines f).isSome then s1.vm.fileLines else s1.vm.fileLines ++ [(f, [])] } }
         | none => s1
       { s2 with currentHunkLines := [], inHunk := false }) := by
  simp only [vmStep, hdg, if_true]

theorem vmFlush_diffHunks_get (s : VMState) (g : List Char) :
    alGet (vmFlush s).vm.diffHunks g =
      if g = s.currentFile then
        some (((alGet s.vm.diffHunks s.currentFile).getD []) ++ s.currentHunkLines)
      else alGet s.vm.diffHunks g := by
  unfold vmFlush
  dsimp only
  by_cases hg : g = s.currentFile
  · rw [if_pos hg, hg, alGet_alSet_self]
  · rw [if_neg hg, alGet_alSet_other _ _ _ _ hg]

theorem coupled_dg (s : VMState) (r : RescanState) (line f : List Char)
    (hdg : pfx dgMark line = true) (hf : reDiffGit line = some f)
    (hR : Coupled s r) : Coupled (vmStep s line) (rescanStep r line) := by
  obtain ⟨h1, h2, h3, h4, h5, h6⟩ := hR
  have hfne : f ≠ [] := reDiffGit_ne_nil line f hf
  have hgne : ∀ g n, vmHasLine s.vm g n = true → g ≠ [] := by
    intro g n hg hg0
    rw [hg0] at hg
    unfold vmHasLine at hg
    rw [h6] at hg
    exact Bool.false_ne_true hg
  rw [rescanStep_dg r line hdg, vmStep_dg s line hdg]
  dsimp only
  rw [hf]
  dsimp only
  set s1 := if s.currentFile ≠ [] ∧ s.currentHunkLines ≠ [] then vmFlush s else s with hs1
  have e1 : s1.vm.fileLines = s.vm.fileLines := by
    rw [hs1]; split <;> rfl
  have e2 : s1.vm.files = s.vm.files := by
    rw [hs1]; split <;> rfl
  have e4 : ∀ g, ((alGet s.vm.diffHunks g).getD [] ≠ [] ∨
      (s.currentFile = g ∧ s.currentHunkLines ≠ [] ∧ g ≠ [])) →
      (alGet s1.vm.diffHunks g).getD [] ≠ [] := by
    intro g hg
    rw [hs1]
    by_cases hfl : s.currentFile ≠ [] ∧ s.currentHunkLines ≠ []
    · rw [if_pos hfl, vmFlush_diffHunks_get]
      by_cases hgc : g = s.currentFile
      · rw [if_pos hgc]
        simp only [Option.getD_some]
        intro hemp
        rcases List.append_eq_nil.mp hemp with ⟨hA, hB⟩
        exact hfl.2 hB
      · rw [if_neg hgc]
        rcases hg with hg | hg
        · exact hg
        · exact absurd hg.1.symm hgc
    · rw [if_neg hfl]
      rcases hg with hg | hg
      · exact hg
      · exfalso
        rcases hg with ⟨hcf, hch, hgn⟩
        exact hfl ⟨by rw [hcf]; exact hgn, hch⟩
  rw [e1, e2]
  refine ⟨?_, ?_, ?_, ?_, ?_, ?_⟩
  · intro g n
    unfold vmHasLine
    dsimp only
    by_cases hex : (alGet s.vm.fileLines f).isSome = true
    · rw [if_pos hex]
      have hv := h1 g n
      unfold vmHasLine at hv
      exact hv
    · rw [if_neg hex]
      have hnone : alGet s.vm.fileLines f = none := Option.not_isSome_iff_eq_none.mp hex
      by_cases hgf : g = f
      · subst hgf
        rw [alGet_snoc_self _ _ _ hnone]
        have hv := h1 g n
        unfold vmHasLine at hv
        rw [hnone] at hv
        rw [← hv]
        rfl
      · rw [alGet_snoc_other _ _ _ _ hgf]
        have hv := h1 g n
        unfold vmHasLine at hv
        exact hv
  · intro g
    show (setAddStr s.vm.files f).contains g = _
    rw [setAddStr_contains]
    by_cases hgf : g = f
    · subst hgf
      rw [beq_self_eq_true, Bool.or_true]
      by_cases hex : (alGet s.vm.fileLines g).isSome = true
      · rw [if_pos hex, hex]
      · rw [if_neg hex]
        have hnone : alGet s.vm.fileLines g = none := Option.not_isSome_iff_eq_none.mp hex
        rw [alGet_snoc_self _ _ _ hnone]
        rfl
    · have hb : (g == f) = false := beq_eq_false_iff_ne.mpr hgf
      rw [hb, Bool.or_false]
      by_cases hex : (alGet s.vm.fileLines f).isSome = true
      · rw [if_pos hex]
        exact h2 g
      · rw [if_neg hex, alGet_snoc_other _ _ _ _ hgf]
        exact h2 g
  · exact Or.inr ⟨hfne, rfl, rfl, fun hc => absurd hc Bool.false_ne_true⟩
  · intro g hg
    obtain ⟨n, hn⟩ := hg
    unfold vmHasLine at hn
    dsimp only at hn
    have hsv : vmHasLine s.vm g n = true := by
      unfold vmHasLine
      by_cases hex : (alGet s.vm.fileLines f).isSome = true
      · rw [if_pos hex] at hn
        exact hn
      · rw [if_neg hex] at hn
        have hnone : alGet s.vm.fileLines f = none := Option.not_isSome_iff_eq_none.mp hex
        by_cases hgf : g = f
        · subst hgf
          rw [alGet_snoc_self _ _ _ hnone] at hn
          exact absurd hn (by simp [List.contains])
        · rw [alGet_snoc_other _ _ _ _ hgf] at hn
          exact hn
    have hold := h4 g ⟨n, hsv⟩
    have hgn : g ≠ [] := hgne g n hsv
    refine Or.inl (e4 g ?_)
    rcases hold with h | h
    · exact Or.inl h
    · exact Or.inr ⟨h.1, h.2, hgn⟩
  · intro hc
    show (alGet (if (alGet s.vm.fileLines f).isSome = true then s.vm.fileLines else s.vm.fileLines ++ [(f, [])]) f).isSome = true
    by_cases hex : (alGet s.vm.fileLines f).isSome = true
    · rw [if_pos hex]
      exact hex
    · rw [if_neg hex]
      have hnone : alGet s.vm.fileLines f = none := Option.not_isSome_iff_eq_none.mp hex
      rw [alGet_snoc_self _ _ _ hnone]
      rfl
  · show alGet (if (alGet s.vm.fileLines f).isSome = true then s.vm.fileLines else s.vm.fileLines ++ [(f, [])]) [] = none
    by_cases hex : (alGet s.vm.fileLines f).isSome = true
    · rw [if_pos hex]
      exact h6
    · rw [if_neg hex, alGet_snoc_other _ _ _ _ (Ne.symm hfne)]
      exact h6


theorem rescanStep_hdr (r : RescanState) (line : List Char) (c : Nat)
    (hdg : pfx dgMark line = false) (hhdr : pfx hdrMark line = true)
    (hc : reHunkHeader line = some c) :
    rescanStep r line = { r with cur := (c : Int), inHunk := true } := by
  simp only [rescanStep, hdg, Bool.false_eq_true, if_false, hhdr, if_true, hc]

theorem vmStep_nofile (s : VMState) (line : List Char)
    (hdg : pfx dgMark line = false) (hcf : s.currentFile = []) :
    vmStep s line = s := by
  simp only [vmStep, hdg, Bool.false_eq_true, if_false, hcf, ne_eq, not_true_eq_false,
    false_and, and_false, if_false]

theorem vmStep_hdr (s : VMState) (line : List Char) (c : Nat)
    (hdg : pfx dgMark line = false) (hhdr : pfx hdrMark line = true)
    (hcf : s.currentFile ≠ []) (hc : reHunkHeader line = some c) :
    vmStep s line = { (if s.currentHunkLines ≠ [] then vmFlush s else s) with
      cur := (c : Int), currentHunkLines := [line], inHunk := true } := by
  rw [vmStep, if_neg (by rw [hdg]; exact Bool.false_ne_true), if_pos ⟨hcf, hhdr⟩]
  dsimp only
  rw [hc]

theorem coupled_hdr (s : VMState) (r : RescanState) (line : List Char) (c : Nat)
    (hdg : pfx dgMark line = false) (hhdr : pfx hdrMark line = true)
    (hc : reHunkHeader line = some c) (hR : Coupled s r) :
    Coupled (vmStep s line) (rescanStep r line) := by
  obtain ⟨h1, h2, h3, h4, h5, h6⟩ := hR
  rw [rescanStep_hdr r line c hdg hhdr hc]
  rcases h3 with ⟨hcf, hpath, hih⟩ | ⟨hcf, hpath, hih, hcur⟩
  · rw [vmStep_nofile s line hdg hcf]
    exact ⟨h1, h2, Or.inl ⟨hcf, hpath, hih⟩, h4, h5, h6⟩
  · rw [vmStep_hdr s line c hdg hhdr hcf hc]
    set s1 := if s.currentHunkLines ≠ [] then vmFlush s else s with hs1
    have e1 : s1.vm.fileLines = s.vm.fileLines := by
      rw [hs1]; split <;> rfl
    have e2 : s1.vm.files = s.vm.files := by
      rw [hs1]; split <;> rfl
    have e0 : s1.currentFile = s.currentFile := by
      rw [hs1]; split <;> rfl
    have e4b : ∀ g, g ≠ s.currentFile → alGet s1.vm.diffHunks g = alGet s.vm.diffHunks g := by
      intro g hg
      rw [hs1]
      split
      · rw [vmFlush_diffHunks_get, if_neg hg]
      · rfl
    refine ⟨?_, ?_, ?_, ?_, ?_, ?_⟩
    · intro g n
      unfold vmHasLine
      dsimp only
      rw [e1]
      have hv := h1 g n
      unfold vmHasLine at hv
      exact hv
    · intro g
      show s1.vm.files.contains g = (alGet s1.vm.fileLines g).isSome
      rw [e1, e2]
      exact h2 g
    · refine Or.inr ⟨?_, ?_, rfl, ?_⟩
      · show s1.currentFile ≠ []
        rw [e0]; exact hcf
      · show r.path = some s1.currentFile
        rw [e0]; exact hpath
      · intro hh
        rfl
    · intro g hg
      obtain ⟨n, hn⟩ := hg
      unfold vmHasLine at hn
      dsimp only at hn
      rw [e1] at hn
      have hsv : vmHasLine s.vm g n = true := by
        unfold vmHasLine
        exact hn
      by_cases hgc : g = s.currentFile
      · refine Or.inr ⟨?_, ?_⟩
        · show s1.currentFile = g
          rw [e0, hgc]
        · show ([line] : List (List Char)) ≠ []
          exact List.cons_ne_nil _ _
      · rcases h4 g ⟨n, hsv⟩ with h | h
        · refine Or.inl ?_
          show (alGet s1.vm.diffHunks g).getD [] ≠ []
          rw [e4b g hgc]
          exact h
        · exact absurd h.1.symm hgc
    · intro hc2
      show (alGet s1.vm.fileLines s1.currentFile).isSome = true
      rw [e1, e0]
      exact h5 hcf
    · show alGet s1.vm.fileLines [] = none
      rw [e1]
      exact h6


theorem rescanStep_plain_out (r : RescanState) (line : List Char)
    (hdg : pfx dgMark line = false) (hhdr : pfx hdrMark line = false)
    (hih : r.inHunk = false) : rescanStep r line = r := by
  simp only [rescanStep, hdg, hhdr, Bool.false_eq_true, if_false, hih]

theorem rescanStep_plain_skip (r : RescanState) (line : List Char)
    (hdg : pfx dgMark line = false) (hhdr : pfx hdrMark line = false)
    (hih : r.inHunk = true)
    (hps : (pfx plusMark line || pfx spaceMark line) = false) :
    rescanStep r line = r := by
  simp only [rescanStep, hdg, hhdr, Bool.false_eq_true, if_false, hih, if_true, hps]

theorem rescanStep_plain_add (r : RescanState) (line : List Char)
    (hdg : pfx dgMark line = false) (hhdr : pfx hdrMark line = false)
    (hih : r.inHunk = true)
    (hps : (pfx plusMark line || pfx spaceMark line) = true) :
    rescanStep r line = { r with
      valid := r.valid ++ (match r.path with | some f => [(f, r.cur)] | none => []),
      cur := r.cur + 1 } := by
  simp only [rescanStep, hdg, hhdr, Bool.false_eq_true, if_false, hih, if_true, hps]

theorem vmStep_plain_out (s : VMState) (line : List Char)
    (hdg : pfx dgMark line = false) (hhdr : pfx hdrMark line = false)
    (hih : s.inHunk = false) : vmStep s line = s := by
  simp only [vmStep, hdg, hhdr, hih, Bool.false_eq_true, if_false, and_false, false_and]

theorem vmStep_plain_in (s : VMState) (line : List Char)
    (hdg : pfx dgMark line = false) (hhdr : pfx hdrMark line = false)
    (hih : s.inHunk = true) (hcf : s.currentFile ≠ []) :
    vmStep s line =
      (if pfx plusMark line then vmAddLine { s with currentHunkLines := s.currentHunkLines ++ [line] }
       else if pfx spaceMark line then vmAddLine { s with currentHunkLines := s.currentHunkLines ++ [line] }
       else { s with currentHunkLines := s.currentHunkLines ++ [line] }) := by
  rw [vmStep, if_neg (by rw [hdg]; exact Bool.false_ne_true),
    if_neg (by intro hcon; rw [hhdr] at hcon; exact Bool.false_ne_true hcon.2),
    if_pos ⟨hih, hcf⟩]

theorem vmAddLine_eq (s : VMState) :
    vmAddLine s = { s with vm := { s.vm with fileLines := alSet s.vm.fileLines s.currentFile (setAddInt ((alGet s.vm.fileLines s.currentFile).getD []) s.cur) }, cur := s.cur + 1 } := rfl


theorem coupled_plain (s : VMState) (r : RescanState) (line : List Char)
    (hdg : pfx dgMark line = false) (hhdr : pfx hdrMark line = false)
    (hR : Coupled s r) : Coupled (vmStep s line) (rescanStep r line) := by
  obtain ⟨h1, h2, h3, h4, h5, h6⟩ := hR
  rcases h3 with ⟨hcf, hpath, hih⟩ | ⟨hcf, hpath, hih, hcur⟩
  · rw [vmStep_nofile s line hdg hcf]
    by_cases hrih : r.inHunk = true
    · by_cases hps : (pfx plusMark line || pfx spaceMark line) = true
      · rw [rescanStep_plain_add r line hdg hhdr hrih hps]
        refine ⟨?_, h2, Or.inl ⟨hcf, hpath, hih⟩, h4, h5, h6⟩
        intro g n
        show vmHasLine s.vm g n = ((r.valid ++ (match r.path with | some f => [(f, r.cur)] | none => [])).contains (g, n))
        rw [hpath]
        dsimp only
        rw [List.append_nil]
        exact h1 g n
      · rw [rescanStep_plain_skip r line hdg hhdr hrih ((Bool.not_eq_true _) ▸ hps)]
        exact ⟨h1, h2, Or.inl ⟨hcf, hpath, hih⟩, h4, h5, h6⟩
    · rw [rescanStep_plain_out r line hdg hhdr ((Bool.not_eq_true _) ▸ hrih)]
      exact ⟨h1, h2, Or.inl ⟨hcf, hpath, hih⟩, h4, h5, h6⟩
  · by_cases hsi : s.inHunk = true
    · have hrih : r.inHunk = true := by rw [← hih]; exact hsi
      have hcursync : s.cur = r.cur := hcur hsi
      obtain ⟨ls, him⟩ : ∃ ls, alGet s.vm.fileLines s.currentFile = some ls := by
        cases hx : alGet s.vm.fileLines s.currentFile with
        | none =>
          have := h5 hcf
          rw [hx] at this
          exact absurd this (by simp)
        | some ls => exact ⟨ls, rfl⟩
      by_cases hps : (pfx plusMark line || pfx spaceMark line) = true
      · have hred : vmStep s line = vmAddLine { s with currentHunkLines := s.currentHunkLines ++ [line] } := by
          rw [vmStep_plain_in s line hdg hhdr hsi hcf]
          by_cases hpl : pfx plusMark line = true
          · rw [if_pos hpl]
          · have hps3 := hps
            simp only [Bool.or_eq_true] at hps3
            rcases hps3 with h | h
            · exact absurd h hpl
            · rw [if_neg hpl, if_pos h]
        rw [hred, rescanStep_plain_add r line hdg hhdr hrih hps, vmAddLine_eq]
        rw [hpath]
        dsimp only
        rw [him]
        simp only [Option.getD_some]
        refine ⟨?_, ?_, ?_, ?_, ?_, ?_⟩
        · intro g n
          unfold vmHasLine
          dsimp only
          by_cases hgc : g = s.currentFile
          · rw [hgc, alGet_alSet_self]
            dsimp only
            rw [setAddInt_contains, contains_snoc]
            have hv := h1 s.currentFile n
            unfold vmHasLine at hv
            rw [him] at hv
            rw [← hv, hcursync]
            congr 1
            by_cases hn : n = r.cur
            · rw [hn, beq_self_eq_true, beq_self_eq_true]
            · rw [beq_eq_false_iff_ne.mpr hn,
                beq_eq_false_iff_ne.mpr (fun hcon => hn (congrArg Prod.snd hcon))]
          · rw [alGet_alSet_other _ _ _ _ hgc, contains_snoc]
            have hpair : ((g, n) == (s.currentFile, r.cur)) = false :=
              beq_eq_false_iff_ne.mpr (fun hcon => hgc (congrArg Prod.fst hcon))
            rw [hpair, Bool.or_false]
            have hv := h1 g n
            unfold vmHasLine at hv
            exact hv
        · intro g
          dsimp only
          by_cases hgc : g = s.currentFile
          · rw [hgc, alGet_alSet_self, h2 s.currentFile, him]
            rfl
          · rw [alGet_alSet_other _ _ _ _ hgc]
            exact h2 g
        · refine Or.inr ⟨hcf, rfl, ?_, ?_⟩
          · show s.inHunk = r.inHunk
            exact hih
          · intro hh
            show s.cur + 1 = r.cur + 1
            rw [hcursync]
        · intro g hg
          obtain ⟨n, hn⟩ := hg
          by_cases hgc : g = s.currentFile
          · refine Or.inr ⟨hgc.symm, ?_⟩
            show s.currentHunkLines ++ [line] ≠ []
            simp
          · unfold vmHasLine at hn
            dsimp only at hn
            rw [alGet_alSet_other _ _ _ _ hgc] at hn
            have hsv : vmHasLine s.vm g n = true := by
              unfold vmHasLine
              exact hn
            rcases h4 g ⟨n, hsv⟩ with h | h
            · exact Or.inl h
            · exact absurd h.1.symm hgc
        · intro hc2
          dsimp only
          rw [alGet_alSet_self]
          rfl
        · dsimp only
          rw [alGet_alSet_other _ _ _ _ (Ne.symm hcf)]
          exact h6
      · have hps2 : (pfx plusMark line || pfx spaceMark line) = false := (Bool.not_eq_true _) ▸ hps
        have hpl : pfx plusMark line = false := (Bool.or_eq_false_iff.mp hps2).1
        have hsp : pfx spaceMark line = false := (Bool.or_eq_false_iff.mp hps2).2
        rw [vmStep_plain_in s line hdg hhdr hsi hcf,
          if_neg (by rw [hpl]; exact Bool.false_ne_true),
          if_neg (by rw [hsp]; exact Bool.false_ne_true),
          rescanStep_plain_skip r line hdg hhdr hrih hps2]
        refine ⟨h1, h2, Or.inr ⟨hcf, hpath, hih, hcur⟩, ?_, h5, h6⟩
        intro g hg
        obtain ⟨n, hn⟩ := hg
        have hsv : vmHasLine s.vm g n = true := hn
        rcases h4 g ⟨n, hsv⟩ with h | h
        · exact Or.inl h
        · refine Or.inr ⟨h.1, ?_⟩
          show s.currentHunkLines ++ [line] ≠ []
          simp
    · have hsif : s.inHunk = false := (Bool.not_eq_true _) ▸ hsi
      have hrif : r.inHunk = false := by rw [← hih]; exact hsif
      rw [vmStep_plain_out s line hdg hhdr hsif, rescanStep_plain_out r line hdg hhdr hrif]
      exact ⟨h1, h2, Or.inr ⟨hcf, hpath, hih, hcur⟩, h4, h5, h6⟩


theorem coupled_step (s : VMState) (r : RescanState) (line : List Char)
    (hwfdg : pfx dgMark line = true → (reDiffGit line).isSome)
    (hwfhdr : pfx hdrMark line = true → (reHunkHeader line).isSome)
    (hR : Coupled s r) : Coupled (vmStep s line) (rescanStep r line) := by
  by_cases hdg : pfx dgMark line = true
  · obtain ⟨f, hf⟩ := Option.isSome_iff_exists.mp (hwfdg hdg)
    exact coupled_dg s r line f hdg hf hR
  · have hdg2 : pfx dgMark line = false := (Bool.not_eq_true _) ▸ hdg
    by_cases hhdr : pfx hdrMark line = true
    · obtain ⟨c, hc⟩ := Option.isSome_iff_exists.mp (hwfhdr hhdr)
      exact coupled_hdr s r line c hdg2 hhdr hc hR
    · exact coupled_plain s r line hdg2 ((Bool.not_eq_true _) ▸ hhdr) hR

theorem coupled_init : Coupled vmInit rescanInit := by
  refine ⟨?_, ?_, Or.inl ⟨rfl, rfl, rfl⟩, ?_, ?_, rfl⟩
  · intro g n
    rfl
  · intro g
    rfl
  · intro g hg
    obtain ⟨n, hn⟩ := hg
    exact absurd hn (by simp [vmHasLine, vmInit, alGet])
  · intro hc
    exact absurd rfl hc

theorem coupled_fold (ls : List (List Char)) (s : VMState) (r : RescanState)
    (hwf : ∀ l ∈ ls, (pfx dgMark l = true → (reDiffGit l).isSome) ∧
      (pfx hdrMark l = true → (reHunkHeader l).isSome))
    (hR : Coupled s r) : Coupled (ls.foldl vmStep s) (ls.foldl rescanStep r) := by
  induction ls generalizing s r with
  | nil => exact hR
  | cons l ls ih =>
    simp only [List.foldl_cons]
    exact ih _ _ (fun x hx => hwf x (List.mem_cons_of_mem _ hx))
      (coupled_step s r l (hwf l (List.mem_cons_self _ _)).1 (hwf l (List.mem_cons_self _ _)).2 hR)

theorem validation_rescan_pre (diff : List Char) (item : AIFeedback)
    (hwf : headersParse diff) :
    validateCommentLocally item (buildValidationMap diff) = true ↔
      rescanValidLine diff item.file item.line = true := by
  have hC := coupled_fold (splitLines diff) vmInit rescanInit (fun l hl => hwf l hl) coupled_init
  unfold buildValidationMap rescanValidLine
  dsimp only
  set sfin := (splitLines diff).foldl vmStep vmInit with hsf
  set rfin := (splitLines diff).foldl rescanStep rescanInit with hrf
  obtain ⟨h1, h2, h3, h4, h5, h6⟩ := hC
  set vmF := if sfin.currentFile ≠ [] ∧ sfin.currentHunkLines ≠ [] then vmFlush sfin else sfin with hvmF
  have eFiles : vmF.vm.files = sfin.vm.files := by
    rw [hvmF]; split <;> rfl
  have eFL : vmF.vm.fileLines = sfin.vm.fileLines := by
    rw [hvmF]; split <;> rfl
  unfold validateCommentLocally
  rw [eFiles, eFL]
  constructor
  · intro h
    simp only [Bool.and_eq_true] at h
    obtain ⟨⟨ha, hb⟩, hc⟩ := h
    have hvh : vmHasLine sfin.vm item.file item.line = true := hb
    rw [← h1 item.file item.line]
    exact hvh
  · intro h
    have hvh : vmHasLine sfin.vm item.file item.line = true := by
      rw [h1 item.file item.line]
      exact h
    have hfne : item.file ≠ [] := by
      intro h0
      rw [h0] at hvh
      unfold vmHasLine at hvh
      rw [h6] at hvh
      exact Bool.false_ne_true hvh
    have hfinal : (alGet vmF.vm.diffHunks item.file).getD [] ≠ [] := by
      rw [hvmF]
      by_cases hfl : sfin.currentFile ≠ [] ∧ sfin.currentHunkLines ≠ []
      · rw [if_pos hfl, vmFlush_diffHunks_get]
        by_cases hgc : item.file = sfin.currentFile
        · rw [if_pos hgc]
          simp only [Option.getD_some]
          intro hemp
          rcases List.append_eq_nil.mp hemp with ⟨hA2, hB2⟩
          exact hfl.2 hB2
        · rw [if_neg hgc]
          rcases h4 item.file ⟨item.line, hvh⟩ with hA | hB
          · exact hA
          · exact absurd hB.1.symm hgc
      · rw [if_neg hfl]
        rcases h4 item.file ⟨item.line, hvh⟩ with hA | hB
        · exact hA
        · exfalso
          exact hfl ⟨by rw [hB.1]; exact hfne, hB.2⟩
    simp only [Bool.and_eq_true]
    refine ⟨⟨?_, ?_⟩, ?_⟩
    · rw [h2 item.file]
      unfold vmHasLine at hvh
      cases hx : alGet sfin.vm.fileLines item.file with
      | none =>
        rw [hx] at hvh
        exact absurd hvh (by simp)
      | some ls => rfl
    · exact hvh
    · cases hx : alGet vmF.vm.diffHunks item.file with
      | none =>
        rw [hx] at hfinal
        exact absurd rfl hfinal
      | some hs =>
        rw [hx] at hfinal
        simp only [Option.getD_some] at hfinal
        cases hs with
        | nil => exact absurd rfl hfinal
        | cons a t => rfl


/-- C2.  Validation soundness and completeness: on a diff whose per-file
headers and hunk headers all parse, the local validator accepts
`(file, line)` exactly when a direct re-scan of the diff shows that line
number occupied by an added or context line inside some hunk of that
file. -/
theorem validation_rescan (diff : List Char) (item : AIFeedback)
    (hwf : headersParse diff) :
    validateCommentLocally item (buildValidationMap diff) = true ↔
      rescanValidLine diff item.file item.line = true :=
  validation_rescan_pre diff item hwf

/-- On a diff with a malformed `@@ ` line the builder keeps counting inside
the dead hunk, so the validator accepts a line the re-scan rejects. -/
theorem validation_rescan_cex :
    validateCommentLocally cexItem2 (buildValidationMap cexDiff2) = true ∧
      rescanValidLine cexDiff2 cexFileF 2 = false := by
  constructor
  · decide
  · decide

/-- The equivalence instantiated at a concrete wellformed diff. -/
theorem validation_rescan_witness :
    headersParse witDiff2 ∧
      (validateCommentLocally witItem2 (buildValidationMap witDiff2) = true ↔
        rescanValidLine witDiff2 witItem2.file witItem2.line = true) :=
  ⟨by decide, validation_rescan witDiff2 witItem2 (by decide)⟩

end CodeGuardian
